import Mathlib

/-!
Verification of the Xibalba orchestrator control plane against its design
specification.

The development shallowly embeds the Python sources:
  orchestrator/api/main.py      (job store, claim engine, lifecycle endpoints)
  orchestrator/worker/worker.py (hybrid command-file writer, result polling)
  local-agent/agent.py          (command-file parser, secret check, execution)

Timestamps are threaded explicitly (each endpoint receives the current time as
a parameter, standing for datetime.utcnow at the call). The in-memory job dict
is modeled as an insertion-ordered association list, which matches the
iteration order of a Python dict. Python truthiness tests on strings and
optionals are embedded explicitly where the source relies on them.
-/

namespace Xibalba

/-! ## Python helpers -/

/-- Python truthiness of an optional string: None and the empty string are falsy. -/
def pyTruthyOptStr : Option String → Bool
  | none => false
  | some s => s != ""

/-- Python `opt or default` for an optional string: falsy values give the default. -/
def pyOrStr (o : Option String) (d : String) : String :=
  match o with
  | none => d
  | some s => if s = "" then d else s

/-- Python `n or default` on an int modeled as Nat: 0 is falsy. -/
def pyOrNat (n d : Nat) : Nat := if n = 0 then d else n

/-- Python list slice `l[k:]` with an arbitrary integer start index. -/
def pySliceFrom (k : Int) (l : List α) : List α :=
  if k < 0 then l.drop (max 0 ((l.length : Int) + k)).toNat
  else l.drop k.toNat

/-! ## Orchestrator domain model (orchestrator/api/main.py) -/

inductive JobState where
  | PENDING
  | CLAIMED
  | RUNNING
  | SUCCESS
  | FAILED
  | CANCELED
deriving DecidableEq, Repr

/-- The result dict attached by complete_job: exit_code, message and an
optional free-form payload (modeled as an association list). -/
structure JobResult where
  exit_code : Int
  message : String
  payload : Option (List (String × String))
deriving DecidableEq, Repr

/-- One job record of the in-memory store (the dict built in enqueue_job). -/
structure Job where
  created_at : Nat
  state : JobState
  repo : String
  ref : String
  runtime : String
  command : List String
  env : List (String × String)
  timeout_seconds : Nat
  resource_limits : List (String × Nat)
  logs : List String
  result : Option JobResult
  worker_id : Option String
  claimed_at : Option Nat
  started_at : Option Nat
  finished_at : Option Nat
deriving DecidableEq, Repr

/-- The _JOBS dict: job_id to record, in insertion order. -/
abbrev Store := List (String × Job)

def emptyStore : Store := []

/-- Python dict assignment `_JOBS[job_id] = j`: replace in place if the key is
present, otherwise append at the end. -/
def storePut (job_id : String) (j : Job) : Store → Store
  | [] => [(job_id, j)]
  | (k, v) :: rest =>
    if k = job_id then (job_id, j) :: rest else (k, v) :: storePut job_id j rest

/-- Python dict lookup `_JOBS.get(job_id)`. -/
def storeGet (job_id : String) (s : Store) : Option Job :=
  match s with
  | [] => none
  | (k, v) :: rest => if k = job_id then some v else storeGet job_id rest

/-- _validate_worker_secret from main.py: if no secret is configured (unset or
empty, both falsy), allow all; otherwise compare `provided or ""` to it. -/
def _validate_worker_secret (workerSecret provided : Option String) : Bool :=
  if !(pyTruthyOptStr workerSecret) then true
  else (provided.getD "") == (workerSecret.getD "")

/-- Request body of POST /jobs (JobRequest), after pydantic defaulting. -/
structure JobRequest where
  repo : String
  ref : String
  runtime : String
  command : List String
  env : List (String × String)
  timeout_seconds : Nat
  resource_limits : List (String × Nat)
deriving DecidableEq, Repr

structure ClaimRequest where
  worker_id : String
  runtime_pref : Option String
deriving DecidableEq, Repr

structure CompleteRequest where
  worker_id : String
  exit_code : Int
  success : Bool
  message : Option String
  result : Option (List (String × String))
deriving DecidableEq, Repr

structure ClaimResponse where
  job_id : String
  repo : String
  ref : String
  runtime : String
  command : List String
  env : List (String × String)
  timeout_seconds : Nat
  resource_limits : List (String × Nat)
deriving DecidableEq, Repr

inductive ApiError where
  | invalidSecret
  | notFound
  | workerMismatch
deriving DecidableEq, Repr

/-- POST /jobs (enqueue_job): store a fresh PENDING job built from the request.
The pydantic `or` defaults of the source are applied on the truthiness of the
fields. -/
def enqueue_job (job_id : String) (req : JobRequest) (now : Nat) (s : Store) : Store :=
  let job : Job :=
    { created_at := now
      state := JobState.PENDING
      repo := req.repo
      ref := req.ref
      runtime := req.runtime
      command := req.command
      env := req.env
      timeout_seconds := pyOrNat req.timeout_seconds 900
      resource_limits := req.resource_limits
      logs := []
      result := none
      worker_id := none
      claimed_at := none
      started_at := none
      finished_at := none }
  storePut job_id job s

/-- The jobs eligible for a claim: PENDING, optionally filtered by runtime
preference. Mirrors the two list comprehensions of _atomically_claim_oldest;
note `if runtime_pref:` in the source, so an empty-string preference applies
no filter. -/
def claimEligible (runtime_pref : Option String) (jobs : Store) : Store :=
  let pending := jobs.filter (fun p => p.2.state == JobState.PENDING)
  match runtime_pref with
  | some rp => if rp = "" then pending else pending.filter (fun p => p.2.runtime == rp)
  | none => pending

def claimedLogLine (now : Nat) (worker_id : String) : String :=
  "[" ++ toString now ++ "] CLAIMED by worker " ++ worker_id

/-- The record rewrite a successful claim applies to the selected job. -/
def claimedJobUpdate (j : Job) (worker_id : String) (now : Nat) : Job :=
  { j with
    state := JobState.CLAIMED
    worker_id := some worker_id
    claimed_at := some now
    logs := j.logs ++ [claimedLogLine now worker_id] }

/-- _atomically_claim_oldest: sort the eligible jobs by created_at (a stable
sort, like the Python list sort), take the first, mark it CLAIMED with the
requesting worker, and write it back. -/
def _atomically_claim_oldest (worker_id : String) (runtime_pref : Option String)
    (now : Nat) (jobs : Store) : Store × Option String :=
  let pending := claimEligible runtime_pref jobs
  match (List.insertionSort (fun a b => a.2.created_at ≤ b.2.created_at) pending).head? with
  | none => (jobs, none)
  | some (job_id, job) =>
    (storePut job_id (claimedJobUpdate job worker_id now) jobs, some job_id)

def runningLogLine (now : Nat) (worker_id : String) : String :=
  "[" ++ toString now ++ "] state=RUNNING: worker " ++ worker_id ++ " started"

/-- The rewrite worker_claim applies after a successful claim: move to
RUNNING, set started_at only if it is not already set (Python truthiness on
the stored value), log the start. It does not touch worker_id. -/
def runningJobUpdate (j : Job) (worker_id : String) (now : Nat) : Job :=
  { j with
    state := JobState.RUNNING
    started_at := match j.started_at with
      | some t => some t
      | none => some now
    logs := j.logs ++ [runningLogLine now worker_id] }

/-- POST /workers/claim (worker_claim): validate the secret, claim the oldest
eligible pending job, then move it to RUNNING and return its details. -/
def worker_claim (workerSecret x_worker_secret : Option String) (req : ClaimRequest)
    (now : Nat) (s : Store) : Store × Except ApiError (Option ClaimResponse) :=
  if !(_validate_worker_secret workerSecret x_worker_secret) then
    (s, Except.error ApiError.invalidSecret)
  else
    let r := _atomically_claim_oldest req.worker_id req.runtime_pref now s
    match r.2 with
    | none => (r.1, Except.ok none)
    | some job_id =>
      match storeGet job_id r.1 with
      | none => (r.1, Except.error ApiError.notFound)
      | some job =>
        let job' : Job := runningJobUpdate job req.worker_id now
        let resp : ClaimResponse :=
          { job_id := job_id
            repo := job'.repo
            ref := job'.ref
            runtime := job'.runtime
            command := job'.command
            env := job'.env
            timeout_seconds := job'.timeout_seconds
            resource_limits := job'.resource_limits }
        (storePut job_id job' r.1, Except.ok (some resp))

/-- The worker-mismatch test shared by append_job_logs and complete_job:
Python `if j.get("worker_id") and req.worker_id != j.get("worker_id")`.
A None or empty-string stored worker is falsy and skips the check. -/
def workerMismatchCheck (j : Job) (req_worker : String) : Bool :=
  match j.worker_id with
  | none => false
  | some w => if w = "" then false else req_worker != w

def appendLogLine (now : Nat) (worker_id line : String) : String :=
  "[" ++ toString now ++ "] " ++ worker_id ++ ": " ++ line

/-- The record rewrite of an accepted append: each line timestamped and
tagged with the submitting worker; no other field changes. -/
def appendedJob (j : Job) (req_worker : String) (lines : List String) (now : Nat) : Job :=
  { j with logs := j.logs ++ lines.map (appendLogLine now req_worker) }

/-- POST /jobs/{job_id}/append (append_job_logs). -/
def append_job_logs (workerSecret x_worker_secret : Option String) (job_id : String)
    (req_worker : String) (lines : List String) (now : Nat) (s : Store) :
    Store × Except ApiError Unit :=
  if !(_validate_worker_secret workerSecret x_worker_secret) then
    (s, Except.error ApiError.invalidSecret)
  else
    match storeGet job_id s with
    | none => (s, Except.error ApiError.notFound)
    | some j =>
      if workerMismatchCheck j req_worker then (s, Except.error ApiError.workerMismatch)
      else (storePut job_id (appendedJob j req_worker lines now) s, Except.ok ())

def completeLogLine (now : Nat) (req : CompleteRequest) : String :=
  "[" ++ toString now ++ "] " ++ req.worker_id ++ ": COMPLETE success=" ++
    toString req.success ++ " exit_code=" ++ toString req.exit_code

/-- The job record written back by complete_job for job j and request req. -/
def completedJob (j : Job) (req : CompleteRequest) (now : Nat) : Job :=
  { j with
    state := if req.success then JobState.SUCCESS else JobState.FAILED
    finished_at := some now
    result := some
      { exit_code := req.exit_code
        message := pyOrStr req.message (if req.success then "success" else "failed")
        payload := match req.result with
          | some p => if p = [] then none else some p
          | none => none }
    logs := j.logs ++ [completeLogLine now req] }

/-- POST /jobs/{job_id}/complete (complete_job): after the secret and worker
checks it unconditionally sets the final state from req.success; the source
never consults the current state. -/
def complete_job (workerSecret x_worker_secret : Option String) (job_id : String)
    (req : CompleteRequest) (now : Nat) (s : Store) : Store × Except ApiError JobState :=
  if !(_validate_worker_secret workerSecret x_worker_secret) then
    (s, Except.error ApiError.invalidSecret)
  else
    match storeGet job_id s with
    | none => (s, Except.error ApiError.notFound)
    | some j =>
      if workerMismatchCheck j req.worker_id then (s, Except.error ApiError.workerMismatch)
      else
        let j' := completedJob j req now
        (storePut job_id j' s, Except.ok j'.state)

def canceledLogLine (now : Nat) : String :=
  "[" ++ toString now ++ "] CANCELED by request"

/-- The record rewrite of an accepted cancel. -/
def canceledJobUpdate (j : Job) (now : Nat) : Job :=
  { j with
    state := JobState.CANCELED
    logs := j.logs ++ [canceledLogLine now]
    finished_at := some now }

/-- POST /jobs/{job_id}/cancel (cancel_job): no-op on terminal states. -/
def cancel_job (job_id : String) (now : Nat) (s : Store) : Store × Except ApiError Unit :=
  match storeGet job_id s with
  | none => (s, Except.error ApiError.notFound)
  | some j =>
    if j.state = JobState.SUCCESS ∨ j.state = JobState.FAILED ∨ j.state = JobState.CANCELED then
      (s, Except.ok ())
    else (storePut job_id (canceledJobUpdate j now) s, Except.ok ())

/-- GET /jobs/{job_id}/logs (get_job_logs): returns `j["logs"][-tail:]`.
The store is returned unchanged: the read path performs no write. -/
def get_job_logs (job_id : String) (tail : Int) (s : Store) :
    Store × Except ApiError (List String) :=
  match storeGet job_id s with
  | none => (s, Except.error ApiError.notFound)
  | some j => (s, Except.ok (pySliceFrom (-tail) j.logs))

/-- The capped log tail serialized by GET /jobs/{job_id} (get_job):
`j["logs"][-1000:]`. The store is returned unchanged. -/
def get_job_details_logs (job_id : String) (s : Store) :
    Store × Except ApiError (List String) :=
  match storeGet job_id s with
  | none => (s, Except.error ApiError.notFound)
  | some j => (s, Except.ok (pySliceFrom (-(1000 : Int)) j.logs))

/-! ## Operation traces over the store -/

/-- One store-mutating API operation, with the time at which it runs. -/
inductive Op where
  | enqueue (job_id : String) (req : JobRequest) (now : Nat)
  | claim (ws hdr : Option String) (req : ClaimRequest) (now : Nat)
  | append (ws hdr : Option String) (job_id req_worker : String)
      (lines : List String) (now : Nat)
  | complete (ws hdr : Option String) (job_id : String) (req : CompleteRequest) (now : Nat)
  | cancel (job_id : String) (now : Nat)

def applyOp (s : Store) : Op → Store
  | Op.enqueue job_id req now => enqueue_job job_id req now s
  | Op.claim ws hdr req now => (worker_claim ws hdr req now s).1
  | Op.append ws hdr job_id w lines now => (append_job_logs ws hdr job_id w lines now s).1
  | Op.complete ws hdr job_id req now => (complete_job ws hdr job_id req now s).1
  | Op.cancel job_id now => (cancel_job job_id now s).1

def applyOps (s : Store) (ops : List Op) : Store := ops.foldl applyOp s

/-- Whether an operation is an enqueue under the given job id. -/
def Op.isEnqueueOf (job_id : String) : Op → Prop
  | Op.enqueue jid _ _ => jid = job_id
  | _ => False

/-- No job record that is still PENDING carries a worker id; established at
enqueue and maintained because the only writer of worker_id (the claim) also
leaves PENDING in the same critical section. -/
def PendingNoWorker (s : Store) : Prop :=
  ∀ p ∈ s, p.2.state = JobState.PENDING → p.2.worker_id = none

/-- The store invariant of every reachable store: unique job ids, and no
pending job with an assigned worker. -/
def StoreInv (s : Store) : Prop :=
  (s.map Prod.fst).Nodup ∧ PendingNoWorker s

/-- A sequence of claim attempts, as the lock serializes them: each holds the
critical section for its whole scan-and-transition, so any concurrent
execution is equivalent to running them in some order. -/
def runClaims : List (String × Option String × Nat) → Store → Store × List (Option String)
  | [], s => (s, [])
  | c :: cs, s =>
    let r := _atomically_claim_oldest c.1 c.2.1 c.2.2 s
    let rest := runClaims cs r.1
    (rest.1, r.2 :: rest.2)

/-! ## Python text helpers (for the hybrid file protocol)

Text is handled as List Char. Named characters stand for the quote characters
so that the shell-quoting code stays readable. -/

def chSQ : Char := Char.ofNat 39
def chDQ : Char := Char.ofNat 34
def chBS : Char := Char.ofNat 92

/-- The code points Python str.isspace accepts: the ASCII whitespace
characters, the separator controls FS, GS, RS and US, NEL, NBSP, Ogham space
mark, the Zs spaces 2000-200A, the line and paragraph separators, narrow
no-break space, medium mathematical space, and ideographic space. -/
def pyWhitespaceChars : List Char :=
  [' ', '\t', '\n', '\x0d', Char.ofNat 0x0b, Char.ofNat 0x0c,
   Char.ofNat 0x1c, Char.ofNat 0x1d, Char.ofNat 0x1e, Char.ofNat 0x1f,
   Char.ofNat 0x85, Char.ofNat 0xa0, Char.ofNat 0x1680,
   Char.ofNat 0x2000, Char.ofNat 0x2001, Char.ofNat 0x2002, Char.ofNat 0x2003,
   Char.ofNat 0x2004, Char.ofNat 0x2005, Char.ofNat 0x2006, Char.ofNat 0x2007,
   Char.ofNat 0x2008, Char.ofNat 0x2009, Char.ofNat 0x200a,
   Char.ofNat 0x2028, Char.ofNat 0x2029, Char.ofNat 0x202f,
   Char.ofNat 0x205f, Char.ofNat 0x3000]

/-- Python str.isspace. -/
def pyIsSpace (c : Char) : Bool := pyWhitespaceChars.contains c

/-- Python str.strip with no argument: remove whitespace from both ends. -/
def pyStrip (l : List Char) : List Char :=
  ((l.dropWhile pyIsSpace).reverse.dropWhile pyIsSpace).reverse

/-- The line boundary characters of Python str.splitlines. -/
def pyIsLineBreak (c : Char) : Bool :=
  c = '\n' || c = '\x0d' || c = Char.ofNat 0x0b || c = Char.ofNat 0x0c ||
  c = Char.ofNat 0x1c || c = Char.ofNat 0x1d || c = Char.ofNat 0x1e ||
  c = Char.ofNat 0x85 || c = Char.ofNat 0x2028 || c = Char.ofNat 0x2029

/-- Python str.splitlines: split at line boundaries, treating a CRLF pair as
a single boundary and producing no trailing empty line. The afterCR flag
carries the lookahead over a just-seen carriage return, so that the LF of a
CRLF pair is consumed silently. -/
def pySplitlinesAux : List Char → Bool → List Char → List (List Char)
  | [], _, cur => if cur.isEmpty then [] else [cur.reverse]
  | c :: cs, afterCR, cur =>
    if afterCR && c = '\n' then pySplitlinesAux cs false cur
    else if c = '\x0d' then cur.reverse :: pySplitlinesAux cs true []
    else if pyIsLineBreak c then cur.reverse :: pySplitlinesAux cs false []
    else pySplitlinesAux cs false (c :: cur)

def pySplitlines (l : List Char) : List (List Char) := pySplitlinesAux l false []

/-- Python str.upper restricted to ASCII (all the text it is applied to here
is ASCII). -/
def pyUpper (l : List Char) : List Char := l.map Char.toUpper

/-- Python sep.join(parts). -/
def pyJoin (sep : List Char) : List (List Char) → List Char
  | [] => []
  | [x] => x
  | x :: y :: ys => x ++ sep ++ pyJoin sep (y :: ys)

/-- Whether one character list starts with another (str.startswith). -/
def startsWithChars : List Char → List Char → Bool
  | [], _ => true
  | _ :: _, [] => false
  | p :: ps, c :: cs => p == c && startsWithChars ps cs

/-- Python str.split(sep, 1) at a single character: the parts before and after
the first occurrence (the whole list and [] if the character is absent). -/
def splitFirst (sep : Char) : List Char → List Char × List Char
  | [] => ([], [])
  | c :: cs =>
    if c = sep then ([], cs)
    else
      let r := splitFirst sep cs
      (c :: r.1, r.2)

/-! ## shlex (Python standard library, as used by worker.py and agent.py) -/

/-- The characters shlex.quote leaves unquoted: ASCII word characters and
the punctuation of its safe set. -/
def shlexSafeChar (c : Char) : Bool :=
  c.isAlphanum || c = '_' || c = '@' || c = '%' || c = '+' || c = '=' ||
  c = ':' || c = ',' || c = '.' || c = '/' || c = '-'

/-- The replacement shlex.quote applies to an embedded single quote: close the
quote, a double-quoted single quote, reopen. -/
def shlexQuoteEscape (c : Char) : List Char :=
  if c = chSQ then [chSQ, chDQ, chSQ, chDQ, chSQ] else [c]

/-- shlex.quote: empty strings and strings with unsafe characters are wrapped
in single quotes, with embedded single quotes escaped. -/
def shlexQuote (s : List Char) : List Char :=
  if s = [] then [chSQ, chSQ]
  else if s.all shlexSafeChar then s
  else chSQ :: (s.flatMap shlexQuoteEscape ++ [chSQ])

/-- shlex.join: quote each argument and join with single spaces. -/
def shlexJoin (args : List (List Char)) : List Char :=
  pyJoin [' '] (args.map shlexQuote)

/-- The whitespace characters of the shlex lexer. -/
def shWs (c : Char) : Bool := c = ' ' || c = '\t' || c = '\x0d' || c = '\n'

/-- Lexer mode of shlex in POSIX mode with whitespace_split. -/
inductive ShMode where
  | norm
  | esc
  | squote
  | dquote
  | dqesc
deriving DecidableEq, Repr

/-- Lexer state: mode, token in progress (none when between tokens; POSIX
mode distinguishes an empty quoted token from no token), emitted tokens. -/
structure ShState where
  mode : ShMode
  cur : Option (List Char)
  acc : List (List Char)
deriving DecidableEq, Repr

def shCur (st : ShState) : List Char := st.cur.getD []

/-- One character step of the shlex POSIX lexer with whitespace_split. -/
def shStep (st : ShState) (c : Char) : ShState :=
  match st.mode with
  | ShMode.norm =>
    if shWs c then
      match st.cur with
      | none => st
      | some t => { mode := ShMode.norm, cur := none, acc := st.acc ++ [t] }
    else if c = chBS then { st with mode := ShMode.esc, cur := some (shCur st) }
    else if c = chSQ then { st with mode := ShMode.squote, cur := some (shCur st) }
    else if c = chDQ then { st with mode := ShMode.dquote, cur := some (shCur st) }
    else { st with cur := some (shCur st ++ [c]) }
  | ShMode.esc => { st with mode := ShMode.norm, cur := some (shCur st ++ [c]) }
  | ShMode.squote =>
    if c = chSQ then { st with mode := ShMode.norm }
    else { st with cur := some (shCur st ++ [c]) }
  | ShMode.dquote =>
    if c = chDQ then { st with mode := ShMode.norm }
    else if c = chBS then { st with mode := ShMode.dqesc }
    else { st with cur := some (shCur st ++ [c]) }
  | ShMode.dqesc =>
    if c = chDQ || c = chBS then { st with mode := ShMode.dquote, cur := some (shCur st ++ [c]) }
    else { st with mode := ShMode.dquote, cur := some (shCur st ++ [chBS, c]) }

def shInit : ShState := { mode := ShMode.norm, cur := none, acc := [] }

/-- End of input: an open quote or dangling escape raises ValueError (none);
otherwise flush the token in progress. -/
def shFinish (st : ShState) : Option (List (List Char)) :=
  match st.mode with
  | ShMode.norm =>
    match st.cur with
    | none => some st.acc
    | some t => some (st.acc ++ [t])
  | _ => none

/-- shlex.split in POSIX mode: run the lexer over the text. -/
def shlexSplit (s : List Char) : Option (List (List Char)) :=
  shFinish (s.foldl shStep shInit)

/-! ## JSON values and json.loads (Python standard library) -/

inductive PyJson where
  | null
  | bool (b : Bool)
  | num (raw : List Char)
  | str (s : List Char)
  | arr (xs : List PyJson)
  | obj (kvs : List (List Char × PyJson))

def jsonWs (c : Char) : Bool := c = ' ' || c = '\t' || c = '\n' || c = '\x0d'

def jsonSkipWs (l : List Char) : List Char := l.dropWhile jsonWs

def jsonNumChar (c : Char) : Bool :=
  c.isDigit || c = '-' || c = '+' || c = '.' || c = 'e' || c = 'E'

/-- Body of a JSON string literal after the opening double quote; numeric
values are kept as their raw character runs (no float semantics is needed). -/
def parseJsonStringBody : Nat → List Char → Option (List Char × List Char)
  | 0, _ => none
  | Nat.succ fuel, cs =>
    match cs with
    | [] => none
    | c :: rest =>
      if c = chDQ then some ([], rest)
      else if c = chBS then
        match rest with
        | [] => none
        | e :: rest2 =>
          let dec : Option Char :=
            if e = chDQ then some chDQ
            else if e = chBS then some chBS
            else if e = '/' then some '/'
            else if e = 'n' then some '\n'
            else if e = 't' then some '\t'
            else if e = 'r' then some '\x0d'
            else if e = 'b' then some (Char.ofNat 8)
            else if e = 'f' then some (Char.ofNat 12)
            else none
          match dec with
          | none => none
          | some d =>
            match parseJsonStringBody fuel rest2 with
            | none => none
            | some (s, r) => some (d :: s, r)
      else
        match parseJsonStringBody fuel rest with
        | none => none
        | some (s, r) => some (c :: s, r)

mutual

def parseJsonValue : Nat → List Char → Option (PyJson × List Char)
  | 0, _ => none
  | Nat.succ fuel, cs =>
    match jsonSkipWs cs with
    | [] => none
    | c :: rest =>
      if c = '[' then
        match jsonSkipWs rest with
        | ']' :: r2 => some (PyJson.arr [], r2)
        | _ =>
          match parseJsonElems fuel rest with
          | none => none
          | some (xs, r2) => some (PyJson.arr xs, r2)
      else if c = '{' then
        match jsonSkipWs rest with
        | '}' :: r2 => some (PyJson.obj [], r2)
        | _ =>
          match parseJsonMembers fuel rest with
          | none => none
          | some (kvs, r2) => some (PyJson.obj kvs, r2)
      else if c = chDQ then
        match parseJsonStringBody (rest.length + 1) rest with
        | none => none
        | some (s, r2) => some (PyJson.str s, r2)
      else if c = 't' then
        if startsWithChars ['r', 'u', 'e'] rest then some (PyJson.bool true, rest.drop 3)
        else none
      else if c = 'f' then
        if startsWithChars ['a', 'l', 's', 'e'] rest then some (PyJson.bool false, rest.drop 4)
        else none
      else if c = 'n' then
        if startsWithChars ['u', 'l', 'l'] rest then some (PyJson.null, rest.drop 3)
        else none
      else if c.isDigit || c = '-' then
        some (PyJson.num (c :: rest.takeWhile jsonNumChar), rest.dropWhile jsonNumChar)
      else none

def parseJsonElems : Nat → List Char → Option (List PyJson × List Char)
  | 0, _ => none
  | Nat.succ fuel, cs =>
    match parseJsonValue fuel cs with
    | none => none
    | some (v, rest) =>
      match jsonSkipWs rest with
      | ',' :: r2 =>
        match parseJsonElems fuel r2 with
        | none => none
        | some (xs, r3) => some (v :: xs, r3)
      | ']' :: r2 => some ([v], r2)
      | _ => none

def parseJsonMembers : Nat → List Char → Option (List (List Char × PyJson) × List Char)
  | 0, _ => none
  | Nat.succ fuel, cs =>
    match jsonSkipWs cs with
    | c :: rest =>
      if c = chDQ then
        match parseJsonStringBody (rest.length + 1) rest with
        | none => none
        | some (k, r1) =>
          match jsonSkipWs r1 with
          | ':' :: r2 =>
            match parseJsonValue fuel r2 with
            | none => none
            | some (v, r3) =>
              match jsonSkipWs r3 with
              | ',' :: r4 =>
                match parseJsonMembers fuel r4 with
                | none => none
                | some (kvs, r5) => some ((k, v) :: kvs, r5)
              | '}' :: r4 => some ([(k, v)], r4)
              | _ => none
          | _ => none
      else none
    | [] => none

end

/-- json.loads: parse one value and require only whitespace to remain;
anything else raises (modeled as none). -/
def jsonLoads (s : List Char) : Option PyJson :=
  match parseJsonValue (s.length + 1) s with
  | none => none
  | some (v, rest) => if jsonSkipWs rest = [] then some v else none

/-- Python dict lookup on the parsed members of a JSON object (json.loads
keeps the last binding of a duplicated key). -/
def pyJsonObjGet (key : List Char) (kvs : List (List Char × PyJson)) : Option PyJson :=
  match kvs.reverse.find? (fun kv => kv.1 == key) with
  | some kv => some kv.2
  | none => none

/-! ## Hybrid command file: producer side (worker.py _write_cmd_file) -/

def MAGIC_HEADER : List Char := "#hybrid-mode".data

def SECRET_TOKEN_KEY : List Char := "SECRET_TOKEN".data

/-- The text _write_cmd_file writes for a list command: the magic header, an
optional SECRET_TOKEN line (only when the secret is truthy), a blank
separator, and shlex.join of the command, each line newline-terminated. -/
def writeCmdFileText (hybrid_secret : Option (List Char)) (command : List (List Char)) :
    List Char :=
  let cmd_str := shlexJoin command
  let secretLines : List (List Char) :=
    match hybrid_secret with
    | some s => if s = [] then [] else [SECRET_TOKEN_KEY ++ [':', ' '] ++ s]
    | none => []
  let lines := [MAGIC_HEADER] ++ secretLines ++ [[]] ++ [cmd_str]
  pyJoin ['\n'] lines ++ ['\n']

/-! ## Hybrid command file: consumer side (agent.py) -/

/-- The header loop of parse_cmd_file: consume lines up to and including the
first blank one, recording the last SECRET_TOKEN value seen; returns the
recorded secret and the remaining (payload) lines. -/
def parseHeaderLines : List (List Char) → Option (List Char) →
    Option (List Char) × List (List Char)
  | [], sec => (sec, [])
  | l :: ls, sec =>
    if pyStrip l = [] then (sec, ls)
    else
      let sec' :=
        if l.contains ':' then
          let kv := splitFirst ':' l
          if pyUpper (pyStrip kv.1) = SECRET_TOKEN_KEY then some (pyStrip kv.2) else sec
        else sec
      parseHeaderLines ls sec'

/-- parse_cmd_file: returns (secret_token, command_text, error_message); the
source never returns a missing command text together with a missing error. -/
def parse_cmd_file (contents : List Char) :
    Option (List Char) × Option (List Char) × Option (List Char) :=
  let lines := pySplitlines contents
  if lines = [] then (none, none, some "empty file".data)
  else
    let rest := lines.dropWhile (fun l => pyStrip l = [])
    match rest with
    | [] => (none, none, some "no content".data)
    | first :: rest2 =>
      if !(startsWithChars MAGIC_HEADER (pyStrip first)) then
        (none, none, some "missing magic header".data)
      else
        let hdr := parseHeaderLines rest2 none
        let cmd_text := pyStrip (pyJoin ['\n'] hdr.2)
        if cmd_text = [] then (hdr.1, none, some "no command payload found".data)
        else (hdr.1, some cmd_text, none)

/-- Checks a parsed JSON array for being a list of strings (isinstance checks
in build_command). -/
def pyJsonAllStrings : List PyJson → Option (List (List Char))
  | [] => some []
  | PyJson.str s :: xs =>
    match pyJsonAllStrings xs with
    | some rest => some (s :: rest)
    | none => none
  | _ :: _ => none

/-- The shlex fallback of build_command: split the text; an empty token list
falls through to the final error, a lexer error is reported. -/
def buildCommandFallback (cmd_text : List Char) :
    Option (List (List Char)) × Option (List Char) :=
  match shlexSplit cmd_text with
  | some argv =>
    if argv = [] then (none, some "could not parse command payload".data)
    else (some argv, none)
  | none => (none, some "failed to parse command".data)

/-- build_command: try JSON first (an array of strings, or an object with a
command key holding one); on any other JSON value or a parse failure fall
back to shlex splitting. Returns (argv, error) as the source does. -/
def build_command (cmd_text : List Char) :
    Option (List (List Char)) × Option (List Char) :=
  match jsonLoads cmd_text with
  | some (PyJson.arr xs) =>
    match pyJsonAllStrings xs with
    | some strs => (some strs, none)
    | none => buildCommandFallback cmd_text
  | some (PyJson.obj kvs) =>
    match pyJsonObjGet "command".data kvs with
    | some (PyJson.arr xs) =>
      match pyJsonAllStrings xs with
      | some strs => (some strs, none)
      | none => buildCommandFallback cmd_text
    | _ => buildCommandFallback cmd_text
  | _ => buildCommandFallback cmd_text

/-- The result dict the agent publishes for one job. -/
structure AgentResult where
  exitCode : Int
  stdout : List Char
  stderr : List Char
  timestamp : Nat
deriving DecidableEq, Repr

/-- Agent configuration: the configured secret (`is not None` enables the
check, so an empty configured secret still enables it) and the dry-run flag. -/
structure AgentConfig where
  secret : Option (List Char)
  dry_run : Bool
deriving DecidableEq, Repr

/-- Python truthiness of the parsed secret value. -/
def pyFalsyOptChars : Option (List Char) → Bool
  | none => true
  | some s => s.isEmpty

/-- LocalAgent.process_single after the file has been claimed and read:
produces the published result and, when it reaches execution, the argv it
runs (the runner argument abstracts run_job). The second component is none
exactly when the command is never invoked. -/
def process_single (cfg : AgentConfig) (now : Nat) (contents : List Char)
    (runner : List (List Char) → Int × List Char × List Char) :
    AgentResult × Option (List (List Char)) :=
  let parsed := parse_cmd_file contents
  match parsed.2.2 with
  | some e =>
    ({ exitCode := -1, stdout := [], stderr := "parse-error: ".data ++ e, timestamp := now },
      none)
  | none =>
    match parsed.2.1 with
    | none =>
      -- unreachable: parse_cmd_file returns an error whenever the text is missing
      ({ exitCode := -1, stdout := [], stderr := "parse-error: ".data, timestamp := now },
        none)
    | some cmd_text =>
      let secret_in_file := parsed.1
      let rejected :=
        match cfg.secret with
        | none => false
        | some s => pyFalsyOptChars secret_in_file || !(secret_in_file == some s)
      if rejected then
        ({ exitCode := 1, stdout := [], stderr := "SECRET_TOKEN missing or invalid".data,
           timestamp := now }, none)
      else
        let built := build_command cmd_text
        if built.2.isSome || (built.1.getD []).isEmpty then
          ({ exitCode := -1, stdout := [],
             stderr := "command-parse-error: ".data ++ built.2.getD [], timestamp := now },
            none)
        else
          let argv := built.1.getD []
          if cfg.dry_run then
            ({ exitCode := 0, stdout := "dry-run: ".data ++ pyJoin [' '] argv,
               stderr := [], timestamp := now }, none)
          else
            let r := runner argv
            ({ exitCode := r.1, stdout := r.2.1, stderr := r.2.2, timestamp := now },
              some argv)

/-! ## Worker result polling (worker.py _poll_for_result) -/

/-- What the result file read yields on one poll: the parsed JSON value, or
the synthesized error dict when reading or parsing raised. -/
inductive PollData where
  | parsed (v : PyJson)
  | readError (msg : List Char)

def parseResultRaw (raw : List Char) : PollData :=
  match jsonLoads raw with
  | some v => PollData.parsed v
  | none => PollData.readError "failed to read/parse result file".data

/-- The observations available to the polling loop: the wall clock before
iteration i, the result file contents at iteration i, and the stop flag. -/
structure PollEnv where
  clock : Nat → Nat
  fileAt : Nat → Option (List Char)
  stopAt : Nat → Bool

/-- The while loop of _poll_for_result, iteration by iteration. The outer
Option is the fuel bound of the model (none only when fuel runs out); the
inner Option is the return value of the source: none on timeout or stop,
some data when a result file was found. -/
def pollForResultLoop (env : PollEnv) (deadline : Nat) :
    Nat → Nat → Option (Option PollData)
  | _, 0 => none
  | i, Nat.succ fuel =>
    if env.stopAt i || !(decide (env.clock i < deadline)) then some none
    else
      match env.fileAt i with
      | some raw => some (some (parseResultRaw raw))
      | none => pollForResultLoop env deadline (i + 1) fuel

/-- _poll_for_result: the deadline is submission time plus the job timeout
(defaulted through `or 900`) plus the fixed five-second grace. -/
def _poll_for_result (env : PollEnv) (now timeout_seconds : Nat) (fuel : Nat) :
    Option (Option PollData) :=
  pollForResultLoop env (now + pyOrNat timeout_seconds 900 + 5) 0 fuel

/-- The completion the worker posts for the hybrid branch, or a crash of the
worker loop (reachable only on a non-dict result value, where the source
would raise on result.get). -/
inductive HybridOutcome where
  | completion (exit_code : Int) (success : Bool) (message : List Char)
  | crash
deriving Repr

def hybridTimeoutMsg : List Char := "[hybrid] timed out waiting for result".data

/-- Python `int(x or d)` on an optional JSON number field, as used for the
exitCode coercions (a raw numeric text is read as an integer; a zero value is
falsy and yields the default). -/
def pyIntOr (v : Option PyJson) (d : Int) : Int :=
  match v with
  | some (PyJson.num raw) =>
    let n := (String.mk raw).toInt?.getD 0
    if n = 0 then d else n
  | _ => d

/-- The dict view the worker takes of a poll result. -/
def pollFields (d : PollData) : List (List Char × PyJson) :=
  match d with
  | PollData.parsed (PyJson.obj kvs) => kvs
  | PollData.parsed _ => []
  | PollData.readError m => [("error".data, PyJson.str m)]

def pollFieldStr (d : PollData) (key : List Char) : List Char :=
  match pyJsonObjGet key (pollFields d) with
  | some (PyJson.str s) => s
  | _ => []

/-- The completion decision of run_command_and_stream after polling: timeout
synthesizes exit code 124; an error result completes as a failure with the
coerced exit code; otherwise success tracks a zero exit code. A non-dict
parsed value makes the source crash on result.get. -/
def run_hybrid_wait (pollRes : Option PollData) : HybridOutcome :=
  match pollRes with
  | none => HybridOutcome.completion 124 false hybridTimeoutMsg
  | some d =>
    match d with
    | PollData.parsed (PyJson.obj kvs) =>
      if (pyJsonObjGet "error".data kvs).isSome then
        let ec := pyIntOr ((pyJsonObjGet "exitCode".data kvs).orElse
          (fun _ => pyJsonObjGet "exit_code".data kvs)) 1
        HybridOutcome.completion ec false
          ("[hybrid agent] error: ".data ++ pollFieldStr d "error".data)
      else
        let ec := pyIntOr ((pyJsonObjGet "exitCode".data kvs).orElse
          (fun _ => pyJsonObjGet "exit_code".data kvs)) 0
        HybridOutcome.completion ec (ec = 0)
          ("hybrid-agent exit_code=".data ++ (toString ec).data)
    | PollData.parsed _ => HybridOutcome.crash
    | PollData.readError m =>
      HybridOutcome.completion (pyIntOr none 1) false
        ("[hybrid agent] error: ".data ++ m)

/-! ## Concrete example inputs for the counterexamples and witnesses -/

/-- A job that was claimed by worker w1, started, and then canceled. -/
def exJobCanceled : Job :=
  { created_at := 1
    state := JobState.CANCELED
    repo := "octo/app"
    ref := "main"
    runtime := "container"
    command := ["make"]
    env := []
    timeout_seconds := 900
    resource_limits := [("cpu", 1), ("memory_mb", 1024)]
    logs := []
    result := none
    worker_id := some "w1"
    claimed_at := some 2
    started_at := some 2
    finished_at := some 3 }

def exStoreCanceled : Store := [("j1", exJobCanceled)]

def exCompleteReq : CompleteRequest :=
  { worker_id := "w1", exit_code := 0, success := true, message := none, result := none }

/-- A freshly enqueued pending job with runtime container. -/
def exJobPending : Job :=
  { created_at := 1
    state := JobState.PENDING
    repo := "octo/app"
    ref := "main"
    runtime := "container"
    command := ["make"]
    env := []
    timeout_seconds := 900
    resource_limits := [("cpu", 1), ("memory_mb", 1024)]
    logs := []
    result := none
    worker_id := none
    claimed_at := none
    started_at := none
    finished_at := none }

def exStorePending : Store := [("j1", exJobPending)]

/-- A job whose stored worker_id is the empty string. -/
def exJobEmptyWorker : Job := { exJobPending with state := JobState.RUNNING, worker_id := some "" }

def exStoreEmptyWorker : Store := [("j1", exJobEmptyWorker)]

/-- A command whose only argument contains a carriage return. -/
def exCmdWithCR : List (List Char) := [['a', '\x0d', 'b']]

/-- The rejection result the agent publishes on a missing or invalid secret. -/
def rejectionResult (now : Nat) : AgentResult :=
  { exitCode := 1
    stdout := []
    stderr := "SECRET_TOKEN missing or invalid".data
    timestamp := now }

/-- A poll environment with an identity clock, no result file ever, and no
stop request. -/
def exPollEnv : PollEnv :=
  { clock := fun i => i
    fileAt := fun _ => none
    stopAt := fun _ => false }

/-- The secret token the file carries, as Python truthiness writes it: falsy
secrets (absent or empty) produce no SECRET_TOKEN line. -/
def writtenSecretToken : Option (List Char) → Option (List Char)
  | some s => if s = [] then none else some s
  | none => none

/-- A two-argument command of safe characters. -/
def exCmdEcho : List (List Char) := ["/bin/echo".data, "hi".data]

/-- A running job with a single log entry. -/
def exJobLogs : Job := { exJobPending with state := JobState.RUNNING, logs := ["L1"] }

def exStoreLogs : Store := [("j1", exJobLogs)]

/-- A job owned by worker wA. -/
def exJobOwned : Job := { exJobPending with state := JobState.RUNNING, worker_id := some "wA" }

def exStoreOwned : Store := [("j1", exJobOwned)]

def exCompleteReqB : CompleteRequest :=
  { worker_id := "wB", exit_code := 0, success := true, message := none, result := none }

def exJobReq : JobRequest :=
  { repo := "octo/app", ref := "main", runtime := "container", command := ["make"],
    env := [], timeout_seconds := 900, resource_limits := [("cpu", 1)] }

def exClaimReq : ClaimRequest := { worker_id := "w1", runtime_pref := none }

/-! # Store lemmas -/

theorem storeGet_storePut_self (job_id : String) (j : Job) (s : Store) :
    storeGet job_id (storePut job_id j s) = some j := by
  induction s with
  | nil => simp [storePut, storeGet]
  | cons p rest ih =>
    obtain ⟨pk, pv⟩ := p
    by_cases h : pk = job_id
    · subst h
      simp [storePut, storeGet]
    · simp [storePut, storeGet, h, ih]

theorem storeGet_storePut_ne (k job_id : String) (hne : k ≠ job_id) (j : Job) (s : Store) :
    storeGet k (storePut job_id j s) = storeGet k s := by
  induction s with
  | nil => simp [storePut, storeGet, Ne.symm hne]
  | cons p rest ih =>
    obtain ⟨pk, pv⟩ := p
    by_cases h : pk = job_id
    · subst h
      simp [storePut, storeGet, Ne.symm hne]
    · by_cases h2 : pk = k
      · subst h2
        simp [storePut, storeGet, h]
      · simp [storePut, storeGet, h, h2, ih]

/-! # C10: worker-secret validation -/

/-- C10: _validate_worker_secret accepts every request when the configured
secret is unset or the empty string (both are falsy, so an empty-string
secret silently disables authentication); with a non-empty configured secret,
a missing header is treated as the empty string, and a request is accepted
exactly when the provided-or-empty value equals the secret. -/
theorem c10_validate_worker_secret (ws provided : Option String) :
    ((ws = none ∨ ws = some "") → _validate_worker_secret ws provided = true) ∧
    (∀ s : String, ws = some s → s ≠ "" →
      (_validate_worker_secret ws provided = true ↔ provided.getD "" = s) ∧
      _validate_worker_secret (some s) none = _validate_worker_secret (some s) (some "")) := by
  constructor
  · rintro (rfl | rfl) <;> simp [_validate_worker_secret, pyTruthyOptStr]
  · rintro s rfl hs
    refine ⟨?_, rfl⟩
    simp [_validate_worker_secret, pyTruthyOptStr, hs]

/-- Witness for C10 at concrete inputs. -/
theorem c10_validate_worker_secret_witness :
    _validate_worker_secret (some "") (some "anything") = true ∧
    (_validate_worker_secret (some "tok") (some "wrong") = true ↔
      (some "wrong" : Option String).getD "" = "tok") := by
  refine ⟨(c10_validate_worker_secret (some "") (some "anything")).1 (Or.inr rfl), ?_⟩
  exact ((c10_validate_worker_secret (some "tok") (some "wrong")).2 "tok" rfl (by decide)).1

/-! # C1: terminal lock-out of complete_job -/

/-- C1 counterexample: complete_job never consults the current state, so a
completion report from the assigned worker arriving after the job was
canceled overwrites CANCELED with SUCCESS and rewrites finished_at — it is
not a no-op as the claim states. -/
theorem c1_counterexample :
    exJobCanceled.state = JobState.CANCELED ∧
    (storeGet "j1" (complete_job none none "j1" exCompleteReq 5 exStoreCanceled).1).map Job.state
      = some JobState.SUCCESS ∧
    (storeGet "j1" (complete_job none none "j1" exCompleteReq 5 exStoreCanceled).1).map
      Job.finished_at = some (some 5) ∧
    exJobCanceled.finished_at = some 3 := by
  refine ⟨rfl, ?_, ?_, rfl⟩ <;> rfl

/-- C1 (amended): complete_job performs no terminal-state check. Whenever the
secret and worker checks pass, a completion on a job in a terminal state
(SUCCESS, FAILED or CANCELED) still overwrites the state with SUCCESS or
FAILED according to the success flag, rewrites finished_at and the result,
and reports the new state; in particular a post-cancel completion does not
leave the state CANCELED. Only cancel_job is a terminal no-op. -/
theorem c1_amended_complete_overwrites_terminal (ws hdr : Option String) (job_id : String)
    (req : CompleteRequest) (now : Nat) (s : Store) (j : Job)
    (hsec : _validate_worker_secret ws hdr = true)
    (hj : storeGet job_id s = some j)
    (hw : workerMismatchCheck j req.worker_id = false)
    (_hterm : j.state = JobState.SUCCESS ∨ j.state = JobState.FAILED ∨
      j.state = JobState.CANCELED) :
    complete_job ws hdr job_id req now s
      = (storePut job_id (completedJob j req now) s, Except.ok (completedJob j req now).state) ∧
    (completedJob j req now).state
      = (if req.success then JobState.SUCCESS else JobState.FAILED) ∧
    (completedJob j req now).state ≠ JobState.CANCELED ∧
    (completedJob j req now).finished_at = some now ∧
    ((completedJob j req now).result).isSome = true := by
  refine ⟨?_, rfl, ?_, rfl, rfl⟩
  · simp [complete_job, hsec, hj, hw]
  · by_cases h : req.success <;> simp [completedJob, h]

/-- Witness for C1 (amended) at the canceled example job. -/
theorem c1_amended_witness :
    complete_job none none "j1" exCompleteReq 5 exStoreCanceled
      = (storePut "j1" (completedJob exJobCanceled exCompleteReq 5) exStoreCanceled,
        Except.ok (completedJob exJobCanceled exCompleteReq 5).state) ∧
    (completedJob exJobCanceled exCompleteReq 5).state ≠ JobState.CANCELED := by
  have h := c1_amended_complete_overwrites_terminal none none "j1" exCompleteReq 5
    exStoreCanceled exJobCanceled rfl rfl rfl (Or.inr (Or.inr rfl))
  exact ⟨h.1, h.2.2.1⟩

/-! # C9: log tail reads -/

/-- C9 counterexample: requesting a tail of 0 entries does not return the
last 0 entries. Python evaluates logs[-0:] as logs[0:], so the whole log list
comes back — here a job with one entry returns that entry, where the claim
requires the empty list. -/
theorem c9_counterexample :
    (get_job_logs "j1" 0 exStoreLogs).2 = Except.ok ["L1"] ∧ exJobLogs.logs = ["L1"] := by
  exact ⟨rfl, rfl⟩

/-- The slice logs[-t:] for a positive t is the drop that keeps the last t
entries. -/
theorem pySliceFrom_neg_of_pos (t : Int) (ht : 1 ≤ t) (l : List α) :
    pySliceFrom (-t) l = l.drop (l.length - t.toNat) := by
  have hlt : -t < 0 := by omega
  have harg : (max 0 ((l.length : Int) + -t)).toNat = l.length - t.toNat := by
    rw [Int.max_def]
    split <;> omega
  simp only [pySliceFrom, if_pos hlt, harg]

/-- C9 (amended): for every requested count n ≥ 1 the log tail read returns
exactly the last n entries of the job (all of them when fewer than n exist),
and the full-details read returns exactly the most recent 1000; neither read
path writes the store, so older entries remain stored. For n = 0 the tail
read instead returns every entry (the Python slice logs[-0:]). -/
theorem c9_amended_log_reads (job_id : String) (tail : Int) (s : Store) (j : Job)
    (hj : storeGet job_id s = some j) (ht : 1 ≤ tail) :
    (get_job_logs job_id tail s).2 = Except.ok (j.logs.drop (j.logs.length - tail.toNat)) ∧
    (j.logs.drop (j.logs.length - tail.toNat)).length = min tail.toNat j.logs.length ∧
    (get_job_logs job_id tail s).1 = s ∧
    (get_job_details_logs job_id s).2 = Except.ok (j.logs.drop (j.logs.length - 1000)) ∧
    (j.logs.drop (j.logs.length - 1000)).length = min 1000 j.logs.length ∧
    (get_job_details_logs job_id s).1 = s := by
  have h1 : pySliceFrom (-tail) j.logs = j.logs.drop (j.logs.length - tail.toNat) :=
    pySliceFrom_neg_of_pos tail ht j.logs
  have h2 : pySliceFrom (-(1000 : Int)) j.logs = j.logs.drop (j.logs.length - 1000) := by
    simpa using pySliceFrom_neg_of_pos 1000 (by omega) j.logs
  refine ⟨?_, ?_, ?_, ?_, ?_, ?_⟩
  · simp [get_job_logs, hj, h1]
  · simp [List.length_drop]; omega
  · simp [get_job_logs, hj]
  · simp [get_job_details_logs, hj, h2]
  · simp [List.length_drop]; omega
  · simp [get_job_details_logs, hj]

/-- Witness for C9 (amended): a one-entry log read with n = 5. -/
theorem c9_amended_witness :
    (get_job_logs "j1" 5 exStoreLogs).2
      = Except.ok (exJobLogs.logs.drop (exJobLogs.logs.length - (5 : Int).toNat)) ∧
    (get_job_logs "j1" 5 exStoreLogs).1 = exStoreLogs := by
  have h := c9_amended_log_reads "j1" 5 exStoreLogs exJobLogs rfl (by omega)
  exact ⟨h.1, h.2.2.1⟩

/-! # C4: worker isolation -/

/-- C4 counterexample: the mismatch check is Python truthiness based, so a
job whose worker_id is set to the empty string accepts an append from a
different worker instead of rejecting it — the append succeeds and the log
list changes. -/
theorem c4_counterexample :
    exJobEmptyWorker.worker_id = some "" ∧
    (append_job_logs none none "j1" "intruder" ["spoofed"] 9 exStoreEmptyWorker).2
      = Except.ok () ∧
    (storeGet "j1" (append_job_logs none none "j1" "intruder" ["spoofed"] 9
      exStoreEmptyWorker).1).map Job.logs = some [appendLogLine 9 "intruder" "spoofed"] := by
  refine ⟨rfl, ?_, ?_⟩ <;> rfl

/-- C4 (amended): for a job whose worker_id is set to a non-empty worker A,
append and complete calls carrying a different worker B are rejected with the
worker-mismatch error and leave the store untouched; for a job with no
worker_id, an append is accepted, extends the logs, and leaves worker_id
unset. -/
theorem c4_amended_worker_isolation (ws hdr : Option String) (job_id A B : String)
    (lines : List String) (req : CompleteRequest) (now : Nat) (s : Store) (j : Job)
    (hsec : _validate_worker_secret ws hdr = true)
    (hj : storeGet job_id s = some j) :
    (j.worker_id = some A → A ≠ "" → B ≠ A →
      append_job_logs ws hdr job_id B lines now s = (s, Except.error ApiError.workerMismatch)) ∧
    (j.worker_id = some A → A ≠ "" → req.worker_id ≠ A →
      complete_job ws hdr job_id req now s = (s, Except.error ApiError.workerMismatch)) ∧
    (j.worker_id = none →
      append_job_logs ws hdr job_id B lines now s
        = (storePut job_id (appendedJob j B lines now) s, Except.ok ()) ∧
      (storeGet job_id (append_job_logs ws hdr job_id B lines now s).1).map Job.worker_id
        = some none) := by
  refine ⟨?_, ?_, ?_⟩
  · intro hA hAne hBne
    have hchk : workerMismatchCheck j B = true := by
      simp [workerMismatchCheck, hA, hAne, hBne]
    simp [append_job_logs, hsec, hj, hchk]
  · intro hA hAne hBne
    have hchk : workerMismatchCheck j req.worker_id = true := by
      simp [workerMismatchCheck, hA, hAne, hBne]
    simp [complete_job, hsec, hj, hchk]
  · intro hA
    have hchk : workerMismatchCheck j B = false := by
      simp [workerMismatchCheck, hA]
    refine ⟨?_, ?_⟩
    · simp [append_job_logs, hsec, hj, hchk]
    · simp [append_job_logs, hsec, hj, hchk, storeGet_storePut_self, appendedJob, hA]

/-- Witness for C4 (amended): worker wA owns the job; wB is rejected on both
paths; on a job with no worker the append is accepted. -/
theorem c4_amended_witness :
    append_job_logs none none "j1" "wB" ["x"] 3 exStoreOwned
      = (exStoreOwned, Except.error ApiError.workerMismatch) ∧
    complete_job none none "j1" exCompleteReqB 3 exStoreOwned
      = (exStoreOwned, Except.error ApiError.workerMismatch) ∧
    (storeGet "j1" (append_job_logs none none "j1" "wB" ["x"] 3 exStorePending).1).map
      Job.worker_id = some none := by
  have h1 := c4_amended_worker_isolation none none "j1" "wA" "wB" ["x"] exCompleteReqB 3
    exStoreOwned exJobOwned rfl rfl
  have h2 := c4_amended_worker_isolation none none "j1" "wA" "wB" ["x"] exCompleteReqB 3
    exStorePending exJobPending rfl rfl
  exact ⟨h1.1 rfl (by decide) (by decide), h1.2.1 rfl (by decide) (by decide),
    (h2.2.2 rfl).2⟩

/-! # C2: claim selects the oldest eligible pending job -/

/-- The head of a stable insertion sort by a Nat key is the first element of
the list attaining the minimal key: it is a member, its key is minimal, and
no earlier element has a key that small (the find? characterization). -/
theorem head_insertionSort_spec (key : α → Nat) (l : List α) :
    ((List.insertionSort (fun a b => key a ≤ key b) l).head? = none → l = []) ∧
    (∀ x, (List.insertionSort (fun a b => key a ≤ key b) l).head? = some x →
      x ∈ l ∧ (∀ y ∈ l, key x ≤ key y) ∧
      l.find? (fun y => decide (key y ≤ key x)) = some x) := by
  induction l with
  | nil =>
    refine ⟨fun _ => rfl, fun x hx => ?_⟩
    simp [List.insertionSort] at hx
  | cons a l ih =>
    have hsort : List.insertionSort (fun a b => key a ≤ key b) (a :: l)
        = List.orderedInsert (fun a b => key a ≤ key b) a
            (List.insertionSort (fun a b => key a ≤ key b) l) := rfl
    rcases hls : List.insertionSort (fun a b => key a ≤ key b) l with _ | ⟨b, t⟩
    · have hl : l = [] := ih.1 (by rw [hls]; rfl)
      subst hl
      refine ⟨fun hc => ?_, fun x hx => ?_⟩
      · rw [hsort, hls] at hc
        simp [List.orderedInsert] at hc
      · rw [hsort, hls] at hx
        simp only [List.orderedInsert, List.head?] at hx
        cases hx
        refine ⟨List.mem_singleton_self a, ?_, ?_⟩
        · intro y hy
          rcases List.mem_singleton.mp hy with rfl
          exact le_refl _
        · simp [List.find?]
    · have hb := ih.2 b (by rw [hls]; rfl)
      obtain ⟨hbmem, hbmin, hbfind⟩ := hb
      by_cases hab : key a ≤ key b
      · refine ⟨fun hc => ?_, fun x hx => ?_⟩
        · rw [hsort, hls] at hc
          simp [List.orderedInsert, hab] at hc
        · rw [hsort, hls] at hx
          simp only [List.orderedInsert, if_pos hab, List.head?] at hx
          cases hx
          refine ⟨List.mem_cons_self a l, ?_, ?_⟩
          · intro y hy
            rcases List.mem_cons.mp hy with rfl | hy
            · exact le_refl _
            · exact le_trans hab (hbmin y hy)
          · simp [List.find?]
      · refine ⟨fun hc => ?_, fun x hx => ?_⟩
        · rw [hsort, hls] at hc
          simp [List.orderedInsert, hab] at hc
        · rw [hsort, hls] at hx
          simp only [List.orderedInsert, if_neg hab, List.head?] at hx
          cases hx
          have hba : key b < key a := lt_of_not_le hab
          refine ⟨List.mem_cons_of_mem a hbmem, ?_, ?_⟩
          · intro y hy
            rcases List.mem_cons.mp hy with rfl | hy
            · exact le_of_lt hba
            · exact hbmin y hy
          · have hpa : (decide (key a ≤ key b)) = false := by
              simp [hab]
            simp [List.find?, hpa, hbfind]

/-- Membership in the eligible list of a claim: a stored pending job, which
additionally matches the runtime preference whenever a non-empty preference
was supplied (an empty-string preference filters nothing, since the source
tests its truthiness). -/
theorem mem_claimEligible (runtime_pref : Option String) (jobs : Store) (q : String × Job) :
    q ∈ claimEligible runtime_pref jobs ↔
      q ∈ jobs ∧ q.2.state = JobState.PENDING ∧
      (∀ rp, runtime_pref = some rp → rp ≠ "" → q.2.runtime = rp) := by
  have hpend : q ∈ jobs.filter (fun p => p.2.state == JobState.PENDING) ↔
      q ∈ jobs ∧ q.2.state = JobState.PENDING := by
    simp [List.mem_filter]
  cases runtime_pref with
  | none =>
    simp only [claimEligible]
    rw [hpend]
    simp
  | some rp =>
    by_cases h : rp = ""
    · subst h
      have hm : claimEligible (some "") jobs
          = jobs.filter (fun p => p.2.state == JobState.PENDING) := by
        simp [claimEligible]
      rw [hm, hpend]
      constructor
      · rintro ⟨hmem, hp⟩
        refine ⟨hmem, hp, ?_⟩
        rintro rp' h1 h2
        injection h1 with h1
        exact absurd h1.symm h2
      · rintro ⟨hmem, hp, _⟩
        exact ⟨hmem, hp⟩
    · have hm : claimEligible (some rp) jobs
          = (jobs.filter (fun p => p.2.state == JobState.PENDING)).filter
              (fun p => p.2.runtime == rp) := by
        simp [claimEligible, h]
      rw [hm]
      constructor
      · intro hq
        rw [List.mem_filter] at hq
        obtain ⟨hq1, hq2⟩ := hq
        rw [hpend] at hq1
        refine ⟨hq1.1, hq1.2, ?_⟩
        rintro rp' h1 _
        injection h1 with h1
        subst h1
        simpa using hq2
      · rintro ⟨hmem, hp, hr⟩
        rw [List.mem_filter]
        refine ⟨hpend.mpr ⟨hmem, hp⟩, ?_⟩
        simpa using hr rp rfl h

/-- C2 counterexample: a runtime preference is given (the empty string), the
only pending job has a different runtime (container), yet the claim selects
that job instead of the none required by the restriction in the claim: the
source treats the empty-string preference as no preference. -/
theorem c2_counterexample :
    (_atomically_claim_oldest "w1" (some "") 5 exStorePending).2 = some "j1" ∧
    exJobPending.runtime = "container" := by
  exact ⟨rfl, rfl⟩

/-- C2 (amended): the eligible set of claim(worker_id, runtime_pref) is the
pending jobs, restricted by runtime only when a non-empty preference is given
(an empty-string preference is treated as no preference). With no eligible
job the call returns none and the store is unchanged. When it returns a job
id, that job is eligible, its created_at is minimal among eligible jobs, no
earlier eligible job has so small a created_at (ties fall to insertion
order), and the store update marks exactly that job CLAIMED with the
requesting worker and the claim timestamp. -/
theorem c2_amended_claim_oldest (worker_id : String) (runtime_pref : Option String)
    (now : Nat) (jobs : Store) :
    (∀ q : String × Job, q ∈ claimEligible runtime_pref jobs ↔
      q ∈ jobs ∧ q.2.state = JobState.PENDING ∧
      (∀ rp, runtime_pref = some rp → rp ≠ "" → q.2.runtime = rp)) ∧
    (claimEligible runtime_pref jobs = [] →
      _atomically_claim_oldest worker_id runtime_pref now jobs = (jobs, none)) ∧
    (∀ jid, (_atomically_claim_oldest worker_id runtime_pref now jobs).2 = some jid →
      ∃ j, (jid, j) ∈ claimEligible runtime_pref jobs ∧
        (∀ q ∈ claimEligible runtime_pref jobs, j.created_at ≤ q.2.created_at) ∧
        (claimEligible runtime_pref jobs).find?
          (fun q => decide (q.2.created_at ≤ j.created_at)) = some (jid, j) ∧
        _atomically_claim_oldest worker_id runtime_pref now jobs
          = (storePut jid (claimedJobUpdate j worker_id now) jobs, some jid)) := by
  refine ⟨mem_claimEligible runtime_pref jobs, ?_, ?_⟩
  · intro h
    simp [_atomically_claim_oldest, h, List.insertionSort]
  · intro jid hjid
    rcases hh : (List.insertionSort (fun a b => a.2.created_at ≤ b.2.created_at)
        (claimEligible runtime_pref jobs)).head? with _ | x
    · rw [_atomically_claim_oldest, hh] at hjid
      simp at hjid
    · obtain ⟨jid', j⟩ := x
      have hspec := (head_insertionSort_spec (fun q : String × Job => q.2.created_at)
        (claimEligible runtime_pref jobs)).2 (jid', j) hh
      have heq : _atomically_claim_oldest worker_id runtime_pref now jobs
          = (storePut jid' (claimedJobUpdate j worker_id now) jobs, some jid') := by
        rw [_atomically_claim_oldest, hh]
      have hjid' : jid' = jid := by
        rw [heq] at hjid
        exact Option.some_injective _ hjid
      subst hjid'
      exact ⟨j, hspec.1, fun q hq => hspec.2.1 q hq, hspec.2.2, heq⟩

/-- Witness for C2 (amended): claiming on a one-pending-job store picks that
job and rewrites it as CLAIMED. -/
theorem c2_amended_witness :
    ("j1", exJobPending) ∈ claimEligible none exStorePending ∧
    _atomically_claim_oldest "w1" none 5 exStorePending
      = (storePut "j1" (claimedJobUpdate exJobPending "w1" 5) exStorePending,
        some "j1") := by
  obtain ⟨j, hmem, hmin, hfind, heq⟩ :=
    (c2_amended_claim_oldest "w1" none 5 exStorePending).2.2 "j1" rfl
  have hel : claimEligible none exStorePending = [("j1", exJobPending)] := rfl
  rw [hel] at hmem
  have hj : j = exJobPending := by
    have := List.mem_singleton.mp hmem
    exact congrArg Prod.snd this
  subst hj
  exact ⟨by rw [hel]; exact List.mem_singleton_self _, heq⟩

/-! # C3: at-most-one-claim under concurrency -/

theorem claimEligible_of_noPending (runtime_pref : Option String) (jobs : Store)
    (h : jobs.filter (fun p => p.2.state == JobState.PENDING) = []) :
    claimEligible runtime_pref jobs = [] := by
  cases runtime_pref with
  | none => simpa [claimEligible] using h
  | some rp =>
    by_cases hrp : rp = "" <;> simp [claimEligible, hrp, h]

theorem claim_none_of_noPending (worker_id : String) (runtime_pref : Option String)
    (now : Nat) (jobs : Store)
    (h : jobs.filter (fun p => p.2.state == JobState.PENDING) = []) :
    _atomically_claim_oldest worker_id runtime_pref now jobs = (jobs, none) := by
  simp [_atomically_claim_oldest, claimEligible_of_noPending runtime_pref jobs h,
    List.insertionSort]

theorem runClaims_none (cs : List (String × Option String × Nat)) (s : Store)
    (h : s.filter (fun p => p.2.state == JobState.PENDING) = []) :
    runClaims cs s = (s, cs.map (fun _ => none)) := by
  induction cs with
  | nil => rfl
  | cons c cs ih =>
    simp [runClaims, claim_none_of_noPending c.1 c.2.1 c.2.2 s h, ih]

/-- Replacing the only entry a filter keeps, under a key-unique store, with a
value the filter drops empties the filter. -/
theorem filter_storePut_empty (P : String × Job → Bool) (s : Store) (jid : String)
    (j j' : Job) (hnodup : (s.map Prod.fst).Nodup)
    (hone : s.filter P = [(jid, j)]) (hj' : P (jid, j') = false) :
    (storePut jid j' s).filter P = [] := by
  induction s with
  | nil => simp at hone
  | cons p rest ih =>
    obtain ⟨pk, pv⟩ := p
    rw [List.map_cons, List.nodup_cons] at hnodup
    by_cases hp : P (pk, pv)
    · rw [List.filter_cons_of_pos hp] at hone
      obtain ⟨hhead, hrest⟩ := List.cons_eq_cons.mp hone
      have hk : pk = jid := congrArg Prod.fst hhead
      subst hk
      simp [storePut, hj', hrest]
    · rw [List.filter_cons_of_neg hp] at hone
      have hmem : (jid, j) ∈ rest := by
        have hf : (jid, j) ∈ rest.filter P := by
          rw [hone]
          exact List.mem_singleton_self _
        exact List.mem_of_mem_filter hf
      have hkne : pk ≠ jid := by
        intro hc
        have hin : pk ∈ List.map Prod.fst rest := by
          rw [hc]
          exact List.mem_map.mpr ⟨(jid, j), hmem, rfl⟩
        exact hnodup.1 hin
      simp only [storePut, if_neg hkne]
      rw [List.filter_cons_of_neg hp]
      exact ih hnodup.2 hone

/-- The eligible list when exactly one job is pending and the preference does
not exclude it. -/
theorem claimEligible_singleton (runtime_pref : Option String) (s : Store) (jid : String)
    (j : Job) (hone : s.filter (fun p => p.2.state == JobState.PENDING) = [(jid, j)])
    (helig : ∀ rp, runtime_pref = some rp → rp = "" ∨ rp = j.runtime) :
    claimEligible runtime_pref s = [(jid, j)] := by
  cases runtime_pref with
  | none => simpa [claimEligible] using hone
  | some rp =>
    by_cases hrp : rp = ""
    · subst hrp
      simpa [claimEligible] using hone
    · rcases helig rp rfl with h | h
      · exact absurd h hrp
      · subst h
        simp [claimEligible, hrp, hone]

/-- A claim against a store whose eligible list is one job selects that job. -/
theorem claim_of_singleton (w : String) (rp : Option String) (now : Nat) (s : Store)
    (jid : String) (j : Job) (he : claimEligible rp s = [(jid, j)]) :
    _atomically_claim_oldest w rp now s
      = (storePut jid (claimedJobUpdate j w now) s, some jid) := by
  simp [_atomically_claim_oldest, he, List.insertionSort, List.orderedInsert]

/-- C3: the claim scan-and-transition executes inside the store lock, so N
concurrent claim calls are equivalent to some serial order of atomic claims.
For every serialization against a store holding exactly one PENDING job
(job ids unique, each call carrying no preference, an empty one, or the
runtime of that job), the first serialized caller receives the job and the
other N-1 receive the no-job signal — exactly one winner, whatever the
interleaving. -/
theorem c3_at_most_one_claim (c : String × Option String × Nat)
    (cs : List (String × Option String × Nat)) (s : Store) (jid : String) (j : Job)
    (hnodup : (s.map Prod.fst).Nodup)
    (hone : s.filter (fun p => p.2.state == JobState.PENDING) = [(jid, j)])
    (helig : ∀ x ∈ c :: cs, ∀ rp, x.2.1 = some rp → rp = "" ∨ rp = j.runtime) :
    (runClaims (c :: cs) s).2 = some jid :: cs.map (fun _ => none) ∧
    ((runClaims (c :: cs) s).2.filter (fun r => r.isSome)).length = 1 := by
  have he := claimEligible_singleton c.2.1 s jid j hone
    (helig c (List.mem_cons_self c cs))
  have h1 := claim_of_singleton c.1 c.2.1 c.2.2 s jid j he
  have hdrained : (storePut jid (claimedJobUpdate j c.1 c.2.2) s).filter
      (fun p => p.2.state == JobState.PENDING) = [] :=
    filter_storePut_empty _ s jid j _ hnodup hone (by simp [claimedJobUpdate])
  have hres : (runClaims (c :: cs) s).2 = some jid :: cs.map (fun _ => none) := by
    simp [runClaims, h1, runClaims_none cs _ hdrained]
  refine ⟨hres, ?_⟩
  rw [hres]
  rw [List.filter_cons_of_pos (by rfl)]
  have hnone : (cs.map (fun _ => (none : Option String))).filter (fun r => r.isSome) = [] := by
    induction cs with
    | nil => rfl
    | cons d ds ihd => simp [ihd]
  rw [hnone]
  rfl

/-- Witness for C3: two serialized claims against one pending job — the first
wins, the second idles. -/
theorem c3_witness :
    (runClaims [("w1", none, 5), ("w2", none, 6)] exStorePending).2 = [some "j1", none] := by
  have h := c3_at_most_one_claim ("w1", none, 5) [("w2", none, 6)] exStorePending "j1"
    exJobPending (by decide) rfl (by
      intro x hx rp hrp
      fin_cases hx <;> simp at hrp)
  simpa using h.1

/-! # C5: worker_id is never overwritten -/

theorem mem_storePut_elim (p : String × Job) (id : String) (j : Job) (s : Store)
    (h : p ∈ storePut id j s) : p = (id, j) ∨ p ∈ s := by
  induction s with
  | nil => simpa [storePut] using h
  | cons q rest ih =>
    obtain ⟨qk, qv⟩ := q
    by_cases hk : qk = id
    · subst hk
      simp only [storePut, if_pos rfl] at h
      rcases List.mem_cons.mp h with rfl | h2
      · exact Or.inl rfl
      · exact Or.inr (List.mem_cons_of_mem _ h2)
    · simp only [storePut, if_neg hk] at h
      rcases List.mem_cons.mp h with rfl | h2
      · exact Or.inr (List.mem_cons_self _ _)
      · rcases ih h2 with h3 | h3
        · exact Or.inl h3
        · exact Or.inr (List.mem_cons_of_mem _ h3)

theorem nodup_keys_storePut (id : String) (j : Job) (s : Store)
    (h : (s.map Prod.fst).Nodup) : ((storePut id j s).map Prod.fst).Nodup := by
  induction s with
  | nil => simp [storePut]
  | cons q rest ih =>
    obtain ⟨qk, qv⟩ := q
    rw [List.map_cons, List.nodup_cons] at h
    by_cases hk : qk = id
    · subst hk
      have hred : storePut qk j ((qk, qv) :: rest) = (qk, j) :: rest := by
        simp [storePut]
      rw [hred, List.map_cons, List.nodup_cons]
      exact ⟨h.1, h.2⟩
    · simp only [storePut, if_neg hk, List.map_cons, List.nodup_cons]
      refine ⟨?_, ih h.2⟩
      intro hc
      obtain ⟨p, hp, hpk⟩ := List.mem_map.mp hc
      rcases mem_storePut_elim p id j rest hp with rfl | hmem
      · exact hk hpk.symm
      · exact h.1 (List.mem_map.mpr ⟨p, hmem, hpk⟩)

theorem pendingNoWorker_storePut (id : String) (j : Job) (s : Store)
    (hs : PendingNoWorker s) (hj : j.state = JobState.PENDING → j.worker_id = none) :
    PendingNoWorker (storePut id j s) := by
  intro p hp hpend
  rcases mem_storePut_elim p id j s hp with rfl | hmem
  · exact hj hpend
  · exact hs p hmem hpend

theorem storeGet_mem (k : String) (v : Job) (s : Store) (h : storeGet k s = some v) :
    (k, v) ∈ s := by
  induction s with
  | nil => simp [storeGet] at h
  | cons q rest ih =>
    obtain ⟨qk, qv⟩ := q
    by_cases hk : qk = k
    · subst hk
      simp only [storeGet, if_pos rfl] at h
      cases h
      exact List.mem_cons_self _ _
    · simp only [storeGet, if_neg hk] at h
      exact List.mem_cons_of_mem _ (ih h)

theorem storeGet_of_mem_nodup (k : String) (v : Job) (s : Store)
    (hnodup : (s.map Prod.fst).Nodup) (h : (k, v) ∈ s) : storeGet k s = some v := by
  induction s with
  | nil => simp at h
  | cons q rest ih =>
    obtain ⟨qk, qv⟩ := q
    rw [List.map_cons, List.nodup_cons] at hnodup
    rcases List.mem_cons.mp h with heq | hmem
    · injection heq with h1 h2
      subst h1
      subst h2
      simp [storeGet]
    · have hk : qk ≠ k := by
        intro hc
        exact hnodup.1 (List.mem_map.mpr ⟨(k, v), hmem, by rw [hc]⟩)
      simp only [storeGet, if_neg hk]
      exact ih hnodup.2 hmem

/-- The two possible outcomes of the atomic claim: no eligible job and an
unchanged store, or one eligible job rewritten as claimed. -/
theorem claim_cases (w : String) (rp : Option String) (now : Nat) (s : Store) :
    _atomically_claim_oldest w rp now s = (s, none) ∨
    ∃ jid j, (jid, j) ∈ claimEligible rp s ∧
      _atomically_claim_oldest w rp now s
        = (storePut jid (claimedJobUpdate j w now) s, some jid) := by
  rcases hh : (List.insertionSort (fun a b => a.2.created_at ≤ b.2.created_at)
      (claimEligible rp s)).head? with _ | x
  · left
    rw [_atomically_claim_oldest, hh]
  · obtain ⟨jid, j⟩ := x
    right
    refine ⟨jid, j, ?_, by rw [_atomically_claim_oldest, hh]⟩
    exact ((head_insertionSort_spec (fun q : String × Job => q.2.created_at) _).2 _ hh).1

/-- The store side of worker_claim: unchanged, or a claimed-then-running
double rewrite of one eligible job. -/
theorem worker_claim_fst_cases (ws hdr : Option String) (req : ClaimRequest) (now : Nat)
    (s : Store) :
    (worker_claim ws hdr req now s).1 = s ∨
    ∃ jid j, (jid, j) ∈ claimEligible req.runtime_pref s ∧
      (worker_claim ws hdr req now s).1
        = storePut jid
            (runningJobUpdate (claimedJobUpdate j req.worker_id now) req.worker_id now)
            (storePut jid (claimedJobUpdate j req.worker_id now) s) := by
  by_cases hv : _validate_worker_secret ws hdr
  · rcases claim_cases req.worker_id req.runtime_pref now s with hc | ⟨jid, j, hmem, hc⟩
    · left
      simp [worker_claim, hv, hc]
    · right
      refine ⟨jid, j, hmem, ?_⟩
      simp [worker_claim, hv, hc, storeGet_storePut_self]
  · left
    simp [worker_claim, hv]

/-- One API operation preserves the store invariant, and preserves the
worker_id of every job that already has one (under unique ids, and provided
the operation does not re-enqueue that id — ids are uuid4-generated and never
reused). -/
theorem step_preserves (s : Store) (op : Op) (inv : StoreInv s) :
    StoreInv (applyOp s op) ∧
    (∀ jid j w, storeGet jid s = some j → j.worker_id = some w → ¬ op.isEnqueueOf jid →
      ∃ j', storeGet jid (applyOp s op) = some j' ∧ j'.worker_id = some w) := by
  cases op with
  | enqueue id req now =>
    constructor
    · exact ⟨nodup_keys_storePut id _ s inv.1,
        pendingNoWorker_storePut id _ s inv.2 (fun _ => rfl)⟩
    · intro jid j w hj hw hne
      have hid : id ≠ jid := fun hc => hne hc
      refine ⟨j, ?_, hw⟩
      show storeGet jid (enqueue_job id req now s) = some j
      rw [enqueue_job, storeGet_storePut_ne jid id (Ne.symm hid)]
      exact hj
  | claim ws hdr req now =>
    have hfst := worker_claim_fst_cases ws hdr req now s
    constructor
    · rcases hfst with h | ⟨jid, j, hmem, h⟩
      · show StoreInv (worker_claim ws hdr req now s).1
        rw [h]
        exact inv
      · show StoreInv (worker_claim ws hdr req now s).1
        rw [h]
        refine ⟨nodup_keys_storePut _ _ _ (nodup_keys_storePut _ _ _ inv.1), ?_⟩
        refine pendingNoWorker_storePut _ _ _
          (pendingNoWorker_storePut _ _ _ inv.2 ?_) ?_
        · intro hc
          cases hc
        · intro hc
          cases hc
    · intro jid0 j0 w hj0 hw0 _
      rcases hfst with h | ⟨jid, j, hmem, h⟩
      · refine ⟨j0, ?_, hw0⟩
        show storeGet jid0 (worker_claim ws hdr req now s).1 = some j0
        rw [h]
        exact hj0
      · have hjne : jid ≠ jid0 := by
          intro hc
          subst hc
          have hmem2 := (mem_claimEligible req.runtime_pref s (jid, j)).mp hmem
          have hget : storeGet jid s = some j :=
            storeGet_of_mem_nodup jid j s inv.1 hmem2.1
          rw [hget] at hj0
          injection hj0 with hj0
          subst hj0
          rw [inv.2 (jid, j) hmem2.1 hmem2.2.1] at hw0
          cases hw0
        refine ⟨j0, ?_, hw0⟩
        show storeGet jid0 (worker_claim ws hdr req now s).1 = some j0
        rw [h, storeGet_storePut_ne jid0 jid (Ne.symm hjne),
          storeGet_storePut_ne jid0 jid (Ne.symm hjne)]
        exact hj0
  | append ws hdr job_id rworker lines now =>
    simp only [applyOp]
    by_cases hv : _validate_worker_secret ws hdr
    · rcases hg : storeGet job_id s with _ | jold
      · have hstep : (append_job_logs ws hdr job_id rworker lines now s).1 = s := by
          simp [append_job_logs, hv, hg]
        rw [hstep]
        exact ⟨inv, fun jid0 j0 w hj0 hw0 _ => ⟨j0, hj0, hw0⟩⟩
      · by_cases hm : workerMismatchCheck jold rworker
        · have hstep : (append_job_logs ws hdr job_id rworker lines now s).1 = s := by
            simp [append_job_logs, hv, hg, hm]
          rw [hstep]
          exact ⟨inv, fun jid0 j0 w hj0 hw0 _ => ⟨j0, hj0, hw0⟩⟩
        · have hstep : (append_job_logs ws hdr job_id rworker lines now s).1
              = storePut job_id (appendedJob jold rworker lines now) s := by
            simp [append_job_logs, hv, hg, hm]
          rw [hstep]
          constructor
          · refine ⟨nodup_keys_storePut _ _ _ inv.1, pendingNoWorker_storePut _ _ _ inv.2 ?_⟩
            intro hpend
            exact inv.2 (job_id, jold) (storeGet_mem job_id jold s hg) hpend
          · intro jid0 j0 w hj0 hw0 _
            by_cases hid : job_id = jid0
            · subst hid
              rw [hg] at hj0
              injection hj0 with hj0
              subst hj0
              exact ⟨_, storeGet_storePut_self _ _ _, hw0⟩
            · refine ⟨j0, ?_, hw0⟩
              rw [storeGet_storePut_ne jid0 job_id (fun hc => hid hc.symm)]
              exact hj0
    · have hstep : (append_job_logs ws hdr job_id rworker lines now s).1 = s := by
        simp [append_job_logs, hv]
      rw [hstep]
      exact ⟨inv, fun jid0 j0 w hj0 hw0 _ => ⟨j0, hj0, hw0⟩⟩
  | complete ws hdr job_id req now =>
    simp only [applyOp]
    by_cases hv : _validate_worker_secret ws hdr
    · rcases hg : storeGet job_id s with _ | jold
      · have hstep : (complete_job ws hdr job_id req now s).1 = s := by
          simp [complete_job, hv, hg]
        rw [hstep]
        exact ⟨inv, fun jid0 j0 w hj0 hw0 _ => ⟨j0, hj0, hw0⟩⟩
      · by_cases hm : workerMismatchCheck jold req.worker_id
        · have hstep : (complete_job ws hdr job_id req now s).1 = s := by
            simp [complete_job, hv, hg, hm]
          rw [hstep]
          exact ⟨inv, fun jid0 j0 w hj0 hw0 _ => ⟨j0, hj0, hw0⟩⟩
        · have hstep : (complete_job ws hdr job_id req now s).1
              = storePut job_id (completedJob jold req now) s := by
            simp [complete_job, hv, hg, hm]
          rw [hstep]
          constructor
          · refine ⟨nodup_keys_storePut _ _ _ inv.1, pendingNoWorker_storePut _ _ _ inv.2 ?_⟩
            intro hpend
            by_cases hsucc : req.success <;> simp [completedJob, hsucc] at hpend
          · intro jid0 j0 w hj0 hw0 _
            by_cases hid : job_id = jid0
            · subst hid
              rw [hg] at hj0
              injection hj0 with hj0
              subst hj0
              exact ⟨_, storeGet_storePut_self _ _ _, hw0⟩
            · refine ⟨j0, ?_, hw0⟩
              rw [storeGet_storePut_ne jid0 job_id (fun hc => hid hc.symm)]
              exact hj0
    · have hstep : (complete_job ws hdr job_id req now s).1 = s := by
        simp [complete_job, hv]
      rw [hstep]
      exact ⟨inv, fun jid0 j0 w hj0 hw0 _ => ⟨j0, hj0, hw0⟩⟩
  | cancel job_id now =>
    simp only [applyOp]
    rcases hg : storeGet job_id s with _ | jold
    · have hstep : (cancel_job job_id now s).1 = s := by
        simp [cancel_job, hg]
      rw [hstep]
      exact ⟨inv, fun jid0 j0 w hj0 hw0 _ => ⟨j0, hj0, hw0⟩⟩
    · by_cases hterm : jold.state = JobState.SUCCESS ∨ jold.state = JobState.FAILED ∨
          jold.state = JobState.CANCELED
      · have hstep : (cancel_job job_id now s).1 = s := by
          simp [cancel_job, hg, hterm]
        rw [hstep]
        exact ⟨inv, fun jid0 j0 w hj0 hw0 _ => ⟨j0, hj0, hw0⟩⟩
      · have hstep : (cancel_job job_id now s).1
            = storePut job_id (canceledJobUpdate jold now) s := by
          simp [cancel_job, hg, hterm]
        rw [hstep]
        constructor
        · refine ⟨nodup_keys_storePut _ _ _ inv.1, pendingNoWorker_storePut _ _ _ inv.2 ?_⟩
          intro hpend
          cases hpend
        · intro jid0 j0 w hj0 hw0 _
          by_cases hid : job_id = jid0
          · subst hid
            rw [hg] at hj0
            injection hj0 with hj0
            subst hj0
            exact ⟨_, storeGet_storePut_self _ _ _, hw0⟩
          · refine ⟨j0, ?_, hw0⟩
            rw [storeGet_storePut_ne jid0 job_id (fun hc => hid hc.symm)]
            exact hj0

theorem applyOps_inv (ops : List Op) (s : Store) (inv : StoreInv s) :
    StoreInv (applyOps s ops) := by
  induction ops generalizing s with
  | nil => exact inv
  | cons op ops ih => exact ih _ (step_preserves s op inv).1

/-- Worker preservation over a whole operation sequence. -/
theorem applyOps_preserves_worker (ops : List Op) (jid w : String) :
    ∀ (s : Store) (j : Job), StoreInv s → storeGet jid s = some j →
    j.worker_id = some w → (∀ op ∈ ops, ¬ op.isEnqueueOf jid) →
    ∃ j', storeGet jid (applyOps s ops) = some j' ∧ j'.worker_id = some w := by
  induction ops with
  | nil =>
    intro s j _ hj hw _
    exact ⟨j, hj, hw⟩
  | cons op ops ih =>
    intro s j hinv hj hw hfresh
    obtain ⟨j1, hj1, hw1⟩ := (step_preserves s op hinv).2 jid j w hj hw
      (hfresh op (List.mem_cons_self op ops))
    exact ih (applyOp s op) j1 (step_preserves s op hinv).1 hj1 hw1
      (fun o ho => hfresh o (List.mem_cons_of_mem op ho))

/-- C5: in every store reachable from the empty store by enqueue, claim,
append, complete and cancel operations, once a job carries a worker_id it is
never overwritten by any later sequence of such operations (with enqueue ids
fresh for that job, as uuid4 ids are never reused): claim assigns worker_id
only to PENDING jobs, no reachable PENDING job has a worker_id, PENDING is
never re-entered, and append/complete/cancel never write worker_id. -/
theorem c5_worker_id_never_overwritten (ops₁ ops₂ : List Op) (jid : String) (j : Job)
    (w : String)
    (hj : storeGet jid (applyOps emptyStore ops₁) = some j)
    (hw : j.worker_id = some w)
    (hfresh : ∀ op ∈ ops₂, ¬ op.isEnqueueOf jid) :
    ∃ j', storeGet jid (applyOps (applyOps emptyStore ops₁) ops₂) = some j' ∧
      j'.worker_id = some w := by
  have hinv : StoreInv (applyOps emptyStore ops₁) := by
    refine applyOps_inv ops₁ emptyStore ⟨?_, ?_⟩
    · simp [emptyStore]
    · intro p hp
      simp [emptyStore] at hp
  exact applyOps_preserves_worker ops₂ jid w _ j hinv hj hw hfresh

/-- Witness for C5: enqueue then claim assigns w1; a later cancel and a
retried completion leave worker_id at w1. -/
theorem c5_witness :
    ∃ j', storeGet "j1"
        (applyOps (applyOps emptyStore
          [Op.enqueue "j1" exJobReq 1, Op.claim none none exClaimReq 2])
          [Op.cancel "j1" 3, Op.complete none none "j1" exCompleteReq 4]) = some j' ∧
      j'.worker_id = some "w1" := by
  rcases hg : storeGet "j1" (applyOps emptyStore
      [Op.enqueue "j1" exJobReq 1, Op.claim none none exClaimReq 2]) with _ | j
  · exact absurd hg (by decide)
  · have hwmap : (storeGet "j1" (applyOps emptyStore
        [Op.enqueue "j1" exJobReq 1, Op.claim none none exClaimReq 2])).map Job.worker_id
        = some (some "w1") := by rfl
    rw [hg] at hwmap
    injection hwmap with hwmap
    refine c5_worker_id_never_overwritten
      [Op.enqueue "j1" exJobReq 1, Op.claim none none exClaimReq 2]
      [Op.cancel "j1" 3, Op.complete none none "j1" exCompleteReq 4]
      "j1" j "w1" hg hwmap ?_
    intro op hop
    fin_cases hop <;> simp [Op.isEnqueueOf]

/-! # C7: agent-side secret rejection -/

/-- C7: when the agent is configured with a secret and a claimed command file
parses but carries no SECRET_TOKEN (or an empty or different one), the agent
publishes the rejection result with exitCode 1 and stderr
SECRET_TOKEN missing or invalid, and never invokes the command: the outcome
is independent of the runner and its executed-argv component is none. -/
theorem c7_secret_rejection (sAgent : List Char) (dry : Bool) (now : Nat)
    (contents : List Char) (runner : List (List Char) → Int × List Char × List Char)
    (tok : Option (List Char)) (ct : List Char)
    (hparse : parse_cmd_file contents = (tok, some ct, none))
    (htok : tok = none ∨ ∃ t, tok = some t ∧ t ≠ sAgent) :
    process_single { secret := some sAgent, dry_run := dry } now contents runner
      = (rejectionResult now, none) := by
  have hrej : (pyFalsyOptChars tok || !(tok == some sAgent)) = true := by
    rcases htok with rfl | ⟨t, rfl, hne⟩
    · rfl
    · by_cases hE : t = []
      · subst hE
        simp [pyFalsyOptChars]
      · simp [pyFalsyOptChars, hE, hne]
  simp [process_single, hparse, hrej, rejectionResult]

/-- Witness for C7: a well-formed command file without a token, against an
agent configured with secret xyz. -/
theorem c7_witness :
    process_single { secret := "xyz".data, dry_run := false } 7
      "#hybrid-mode\n\n/bin/echo hi".data (fun _ => (0, [], []))
      = (rejectionResult 7, none) := by
  exact c7_secret_rejection "xyz".data false 7 "#hybrid-mode\n\n/bin/echo hi".data
    (fun _ => (0, [], [])) none "/bin/echo hi".data (by rfl) (Or.inl rfl)

/-! # C8: worker-side timeout synthesis -/

/-- The polling loop returns the timeout signal (not fuel exhaustion) as soon
as the clock passes the deadline, provided no result file appears before it. -/
theorem pollLoop_timeout (env : PollEnv) (deadline : Nat) (N : Nat)
    (hfile : ∀ i, env.clock i < deadline → env.fileAt i = none)
    (hstop : ∀ i, env.stopAt i = false)
    (hN : deadline ≤ env.clock N) :
    ∀ fuel i, i ≤ N → N < i + fuel →
      pollForResultLoop env deadline i fuel = some none := by
  intro fuel
  induction fuel with
  | zero =>
    intro i h1 h2
    omega
  | succ fuel ih =>
    intro i h1 h2
    rw [pollForResultLoop]
    by_cases hd : env.clock i < deadline
    · have hcond : (env.stopAt i || !(decide (env.clock i < deadline))) = false := by
        simp [hstop i, hd]
      rw [if_neg (by simp [hcond])]
      rw [hfile i hd]
      have hi : i ≠ N := by
        intro hc
        subst hc
        omega
      exact ih (i + 1) (by omega) (by omega)
    · have hcond : (env.stopAt i || !(decide (env.clock i < deadline))) = true := by
        simp [hstop i, hd]
      rw [if_pos (by simp [hcond])]

/-- C8: when no result file appears before the deadline of timeout_seconds
(defaulted through `or 900`) plus the five-second grace, the waiting worker
terminates its poll (it does not block past the first clock reading at or
beyond the deadline, nor crash) and synthesizes a failure completion with the
distinct timeout exit code 124 and success false. -/
theorem c8_timeout_synthesis (env : PollEnv) (now timeout_seconds fuel N : Nat)
    (hfile : ∀ i, env.clock i < now + pyOrNat timeout_seconds 900 + 5 → env.fileAt i = none)
    (hstop : ∀ i, env.stopAt i = false)
    (hN : now + pyOrNat timeout_seconds 900 + 5 ≤ env.clock N)
    (hfuel : N < fuel) :
    _poll_for_result env now timeout_seconds fuel = some none ∧
    run_hybrid_wait none = HybridOutcome.completion 124 false hybridTimeoutMsg := by
  refine ⟨?_, rfl⟩
  exact pollLoop_timeout env _ N hfile hstop hN fuel 0 (by omega) (by omega)

/-- Witness for C8: an identity clock, never any result file, a one-second
job timeout — the poll ends in the timeout signal. -/
theorem c8_witness :
    _poll_for_result exPollEnv 0 1 7 = some none ∧
    run_hybrid_wait none = HybridOutcome.completion 124 false hybridTimeoutMsg := by
  exact c8_timeout_synthesis exPollEnv 0 1 7 6 (fun _ _ => rfl) (fun _ => rfl)
    (by decide) (by decide)

/-! # C6: hybrid command-file round trip

The shlex lexer lemmas: processing a quoted argument from a clean state
appends exactly that argument to the token in progress. -/

theorem shlexSafeChar_not_ws (c : Char) (h : shlexSafeChar c = true) : shWs c = false := by
  cases hws : shWs c
  · rfl
  · exfalso
    rw [shWs] at hws
    simp only [Bool.or_eq_true, decide_eq_true_eq] at hws
    rcases hws with ((h1 | h1) | h1) | h1 <;> subst h1 <;> exact absurd h (by decide)

theorem shlexSafeChar_ne_chSQ (c : Char) (h : shlexSafeChar c = true) : c ≠ chSQ := by
  intro hc
  subst hc
  exact absurd h (by decide)

theorem shlexSafeChar_ne_chDQ (c : Char) (h : shlexSafeChar c = true) : c ≠ chDQ := by
  intro hc
  subst hc
  exact absurd h (by decide)

theorem shlexSafeChar_ne_chBS (c : Char) (h : shlexSafeChar c = true) : c ≠ chBS := by
  intro hc
  subst hc
  exact absurd h (by decide)

theorem shStep_norm_safe (c : Char) (h : shlexSafeChar c = true) (cur : Option (List Char))
    (acc : List (List Char)) :
    shStep ⟨ShMode.norm, cur, acc⟩ c = ⟨ShMode.norm, some (cur.getD [] ++ [c]), acc⟩ := by
  simp [shStep, shCur, shlexSafeChar_not_ws c h, shlexSafeChar_ne_chBS c h,
    shlexSafeChar_ne_chSQ c h, shlexSafeChar_ne_chDQ c h]

theorem foldl_shStep_safe (a : List Char) (h : ∀ c ∈ a, shlexSafeChar c = true)
    (x : List Char) (acc : List (List Char)) :
    List.foldl shStep ⟨ShMode.norm, some x, acc⟩ a = ⟨ShMode.norm, some (x ++ a), acc⟩ := by
  induction a generalizing x with
  | nil => simp
  | cons c rest ih =>
    rw [List.foldl_cons, shStep_norm_safe c (h c (List.mem_cons_self c rest)) (some x) acc]
    have := ih (fun d hd => h d (List.mem_cons_of_mem c hd)) (x ++ [c])
    simpa using this

theorem foldl_shStep_squote_body (a : List Char) (x : List Char) (acc : List (List Char)) :
    List.foldl shStep ⟨ShMode.squote, some x, acc⟩ (a.flatMap shlexQuoteEscape)
      = ⟨ShMode.squote, some (x ++ a), acc⟩ := by
  induction a generalizing x with
  | nil => simp
  | cons c rest ih =>
    rw [List.flatMap_cons, List.foldl_append]
    by_cases hc : c = chSQ
    · subst hc
      have h5 : List.foldl shStep ⟨ShMode.squote, some x, acc⟩ (shlexQuoteEscape chSQ)
          = ⟨ShMode.squote, some (x ++ [chSQ]), acc⟩ := by
        have d1 : chDQ ≠ chSQ := by decide
        have d2 : chSQ ≠ chDQ := by decide
        have d3 : chSQ ≠ chBS := by decide
        have d4 : shWs chDQ = false := by decide
        have d5 : chDQ ≠ chBS := by decide
        have d6 : shWs chSQ = false := by decide
        simp [shlexQuoteEscape, shStep, shCur, d1, d2, d3, d4, d5, d6]
      rw [h5]
      have := ih (x ++ [chSQ])
      simpa using this
    · have h1 : List.foldl shStep ⟨ShMode.squote, some x, acc⟩ (shlexQuoteEscape c)
          = ⟨ShMode.squote, some (x ++ [c]), acc⟩ := by
        simp [shlexQuoteEscape, hc, shStep, shCur]
      rw [h1]
      have := ih (x ++ [c])
      simpa using this

theorem foldl_shStep_quote (a : List Char) (acc : List (List Char)) :
    List.foldl shStep ⟨ShMode.norm, none, acc⟩ (shlexQuote a) = ⟨ShMode.norm, some a, acc⟩ := by
  rw [shlexQuote]
  have d3 : chSQ ≠ chBS := by decide
  have d6 : shWs chSQ = false := by decide
  by_cases h0 : a = []
  · subst h0
    simp [shStep, shCur, d3, d6]
  · rw [if_neg h0]
    by_cases h1 : a.all shlexSafeChar
    · rw [if_pos h1]
      rcases a with _ | ⟨c, rest⟩
      · exact absurd rfl h0
      · rw [List.all_cons, Bool.and_eq_true] at h1
        rw [List.foldl_cons, shStep_norm_safe c h1.1 none acc]
        have := foldl_shStep_safe rest (fun d hd => by
          have := List.all_eq_true.mp h1.2 d hd
          simpa using this) [c] acc
        simpa using this
    · rw [if_neg h1]
      rw [List.foldl_cons]
      have hopen : shStep ⟨ShMode.norm, none, acc⟩ chSQ = ⟨ShMode.squote, some [], acc⟩ := by
        simp [shStep, shCur, d3, d6]
      rw [hopen, List.foldl_append, foldl_shStep_squote_body a [] acc]
      simp [shStep]

theorem pyJoin_cons₂ (sep x y : List Char) (ys : List (List Char)) :
    pyJoin sep (x :: y :: ys) = x ++ sep ++ pyJoin sep (y :: ys) := rfl

theorem shStep_norm_flush (x : List Char) (acc : List (List Char)) :
    shStep ⟨ShMode.norm, some x, acc⟩ ' ' = ⟨ShMode.norm, none, acc ++ [x]⟩ := by
  have d : shWs ' ' = true := by decide
  simp [shStep, d]

theorem shlexSplit_join_aux (args : List (List Char)) :
    ∀ (a : List Char) (acc : List (List Char)),
    shFinish (List.foldl shStep ⟨ShMode.norm, none, acc⟩
      (pyJoin [' '] ((a :: args).map shlexQuote))) = some (acc ++ a :: args) := by
  induction args with
  | nil =>
    intro a acc
    rw [List.map_cons, List.map_nil, pyJoin, foldl_shStep_quote a acc]
    rfl
  | cons b more ih =>
    intro a acc
    rw [List.map_cons, List.map_cons, pyJoin_cons₂]
    rw [List.foldl_append, List.foldl_append, foldl_shStep_quote a acc]
    rw [show List.foldl shStep ⟨ShMode.norm, some a, acc⟩ [' ']
      = ⟨ShMode.norm, none, acc ++ [a]⟩ from shStep_norm_flush a acc]
    have := ih b (acc ++ [a])
    rw [List.map_cons] at this
    rw [this]
    simp

/-- shlex.split is a left inverse of shlex.join on non-empty argument lists. -/
theorem shlexSplit_shlexJoin (args : List (List Char)) (h : args ≠ []) :
    shlexSplit (shlexJoin args) = some args := by
  rcases args with _ | ⟨a, rest⟩
  · exact absurd rfl h
  · rw [shlexSplit, shlexJoin, shInit]
    have := shlexSplit_join_aux rest a []
    simpa using this

/-! Character classes of the join output: every character is one of the
original argument characters, a quote, or the separating space; the first and
last characters are a single quote or a safe character. -/

theorem mem_shlexQuoteEscape (c d : Char) (h : c ∈ shlexQuoteEscape d) :
    c = d ∨ c = chSQ ∨ c = chDQ := by
  rw [shlexQuoteEscape] at h
  by_cases hd : d = chSQ
  · rw [if_pos hd] at h
    simp only [List.mem_cons, List.not_mem_nil, or_false] at h
    rcases h with rfl | rfl | rfl | rfl | rfl
    · exact Or.inr (Or.inl rfl)
    · exact Or.inr (Or.inr rfl)
    · exact Or.inr (Or.inl rfl)
    · exact Or.inr (Or.inr rfl)
    · exact Or.inr (Or.inl rfl)
  · rw [if_neg hd] at h
    simp only [List.mem_cons, List.not_mem_nil, or_false] at h
    exact Or.inl h

theorem mem_shlexQuote (c : Char) (a : List Char) (h : c ∈ shlexQuote a) :
    c ∈ a ∨ c = chSQ ∨ c = chDQ := by
  rw [shlexQuote] at h
  by_cases h0 : a = []
  · rw [if_pos h0] at h
    simp only [List.mem_cons, List.not_mem_nil, or_false] at h
    rcases h with rfl | rfl
    · exact Or.inr (Or.inl rfl)
    · exact Or.inr (Or.inl rfl)
  · rw [if_neg h0] at h
    by_cases h1 : a.all shlexSafeChar
    · rw [if_pos h1] at h
      exact Or.inl h
    · rw [if_neg h1] at h
      rcases List.mem_cons.mp h with rfl | h2
      · exact Or.inr (Or.inl rfl)
      · rcases List.mem_append.mp h2 with h3 | h3
        · obtain ⟨d, hd, hcd⟩ := List.mem_flatMap.mp h3
          rcases mem_shlexQuoteEscape c d hcd with rfl | h4
          · exact Or.inl hd
          · exact Or.inr h4
        · simp only [List.mem_cons, List.not_mem_nil, or_false] at h3
          subst h3
          exact Or.inr (Or.inl rfl)

theorem mem_pyJoin (c : Char) (sep : List Char) (parts : List (List Char))
    (h : c ∈ pyJoin sep parts) : (∃ p ∈ parts, c ∈ p) ∨ c ∈ sep := by
  induction parts with
  | nil => simp [pyJoin] at h
  | cons p ps ih =>
    rcases ps with _ | ⟨q, qs⟩
    · exact Or.inl ⟨p, List.mem_singleton_self p, h⟩
    · rw [pyJoin_cons₂] at h
      rcases List.mem_append.mp h with h1 | h1
      · rcases List.mem_append.mp h1 with h2 | h2
        · exact Or.inl ⟨p, List.mem_cons_self _ _, h2⟩
        · exact Or.inr h2
      · rcases ih h1 with ⟨r, hr, hcr⟩ | h2
        · exact Or.inl ⟨r, List.mem_cons_of_mem p hr, hcr⟩
        · exact Or.inr h2

theorem shlexQuote_ne_nil (a : List Char) : shlexQuote a ≠ [] := by
  rw [shlexQuote]
  by_cases h0 : a = []
  · simp [h0]
  · rw [if_neg h0]
    by_cases h1 : a.all shlexSafeChar
    · rw [if_pos h1]
      exact h0
    · rw [if_neg h1]
      simp

theorem shlexQuote_head (a : List Char) :
    ∃ d rest, shlexQuote a = d :: rest ∧ (d = chSQ ∨ shlexSafeChar d = true) := by
  rw [shlexQuote]
  by_cases h0 : a = []
  · exact ⟨chSQ, [chSQ], by simp [h0], Or.inl rfl⟩
  · rw [if_neg h0]
    by_cases h1 : a.all shlexSafeChar
    · rw [if_pos h1]
      rcases a with _ | ⟨c, rest⟩
      · exact absurd rfl h0
      · rw [List.all_cons, Bool.and_eq_true] at h1
        exact ⟨c, rest, rfl, Or.inr h1.1⟩
    · rw [if_neg h1]
      exact ⟨chSQ, _, rfl, Or.inl rfl⟩

theorem shlexQuote_getLast (a : List Char) :
    ∃ d, (shlexQuote a).getLast? = some d ∧ (d = chSQ ∨ shlexSafeChar d = true) := by
  rw [shlexQuote]
  by_cases h0 : a = []
  · exact ⟨chSQ, by simp [h0], Or.inl rfl⟩
  · rw [if_neg h0]
    by_cases h1 : a.all shlexSafeChar
    · rw [if_pos h1]
      rcases hl : a.getLast? with _ | d
      · exact absurd (List.getLast?_eq_none_iff.mp hl) h0
      · refine ⟨d, rfl, Or.inr ?_⟩
        obtain ⟨hne, hd⟩ := List.mem_getLast?_eq_getLast (l := a) (x := d) hl
        have hmem : d ∈ a := hd ▸ List.getLast_mem hne
        exact List.all_eq_true.mp h1 d hmem
    · rw [if_neg h1]
      refine ⟨chSQ, ?_, Or.inl rfl⟩
      rw [show chSQ :: (a.flatMap shlexQuoteEscape ++ [chSQ])
        = (chSQ :: a.flatMap shlexQuoteEscape) ++ [chSQ] by simp]
      rw [List.getLast?_append_cons]
      rfl

theorem pyJoin_ne_nil (sep : List Char) (p : List Char) (ps : List (List Char))
    (hp : p ≠ []) : pyJoin sep (p :: ps) ≠ [] := by
  rcases ps with _ | ⟨q, qs⟩
  · exact hp
  · rw [pyJoin_cons₂]
    simp [hp]

theorem pyJoin_head (sep p : List Char) (ps : List (List Char)) (hp : p ≠ []) :
    (pyJoin sep (p :: ps)).head? = p.head? := by
  rcases ps with _ | ⟨q, qs⟩
  · rfl
  · rw [pyJoin_cons₂]
    rcases p with _ | ⟨c, t⟩
    · exact absurd rfl hp
    · simp

theorem pyJoin_getLast (sep : List Char) (parts : List (List Char))
    (hne : parts ≠ []) (hall : ∀ q ∈ parts, q ≠ []) :
    (pyJoin sep parts).getLast? = (parts.getLast hne).getLast? := by
  induction parts with
  | nil => exact absurd rfl hne
  | cons p ps ih =>
    rcases ps with _ | ⟨q, qs⟩
    · simp [pyJoin]
    · rw [pyJoin_cons₂]
      have hq : pyJoin sep (q :: qs) ≠ [] :=
        pyJoin_ne_nil sep q qs (hall q (List.mem_cons_of_mem p (List.mem_cons_self q qs)))
      rw [List.getLast?_append_of_ne_nil (p ++ sep) hq]
      rw [ih (by simp) (fun r hr => hall r (List.mem_cons_of_mem p hr))]
      simp [List.getLast_cons]

theorem getLast?_map (f : α → β) (l : List α) : (l.map f).getLast? = l.getLast?.map f := by
  induction l with
  | nil => rfl
  | cons a t ih =>
    rcases t with _ | ⟨b, t2⟩
    · rfl
    · rw [List.map_cons, List.map_cons, List.getLast?_cons_cons, ← List.map_cons, ih,
        List.getLast?_cons_cons]

theorem shlexSafeChar_not_space (c : Char) (h : shlexSafeChar c = true) :
    pyIsSpace c = false := by
  cases hs : pyIsSpace c
  · rfl
  · exfalso
    rw [pyIsSpace] at hs
    have hmem : c ∈ pyWhitespaceChars := List.mem_of_elem_eq_true hs
    simp only [pyWhitespaceChars] at hmem
    fin_cases hmem <;> exact absurd h (by decide)

theorem shlexSafeChar_not_break (c : Char) (h : shlexSafeChar c = true) :
    pyIsLineBreak c = false := by
  cases hs : pyIsLineBreak c
  · rfl
  · exfalso
    rw [pyIsLineBreak] at hs
    simp only [Bool.or_eq_true, decide_eq_true_eq] at hs
    rcases hs with ((((((((h1 | h1) | h1) | h1) | h1) | h1) | h1) | h1) | h1) | h1 <;>
      subst h1 <;> exact absurd h (by decide)

/-- The only line-break character shlex.join output can contain is a newline
inherited from an argument, provided the arguments use no other breaks. -/
theorem shlexJoin_breaks (args : List (List Char))
    (hargs : ∀ a ∈ args, ∀ c ∈ a, pyIsLineBreak c = true → c = '\n') :
    ∀ c ∈ shlexJoin args, pyIsLineBreak c = true → c = '\n' := by
  intro c hc hb
  rcases mem_pyJoin c [' '] (args.map shlexQuote) hc with ⟨p, hp, hcp⟩ | hsep
  · obtain ⟨a, ha, rfl⟩ := List.mem_map.mp hp
    rcases mem_shlexQuote c a hcp with hmem | rfl | rfl
    · exact hargs a ha c hmem hb
    · exact absurd hb (by decide)
    · exact absurd hb (by decide)
  · simp only [List.mem_cons, List.not_mem_nil, or_false] at hsep
    subst hsep
    exact absurd hb (by decide)

/-- The first character of shlex.join output is a quote or a safe character. -/
theorem shlexJoin_head (a : List Char) (rest : List (List Char)) :
    ∃ d r, shlexJoin (a :: rest) = d :: r ∧ (d = chSQ ∨ shlexSafeChar d = true) := by
  obtain ⟨d, qr, hq, hclass⟩ := shlexQuote_head a
  have hh : (shlexJoin (a :: rest)).head? = some d := by
    rw [shlexJoin, List.map_cons, pyJoin_head [' '] (shlexQuote a) _ (shlexQuote_ne_nil a),
      hq]
    rfl
  rcases hj : shlexJoin (a :: rest) with _ | ⟨d2, r⟩
  · rw [hj] at hh
    simp at hh
  · rw [hj] at hh
    simp only [List.head?_cons, Option.some_inj] at hh
    subst hh
    exact ⟨d2, r, rfl, hclass⟩

/-- The last character of shlex.join output is a quote or a safe character. -/
theorem shlexJoin_getLast (a : List Char) (rest : List (List Char)) :
    ∃ d, (shlexJoin (a :: rest)).getLast? = some d ∧
      (d = chSQ ∨ shlexSafeChar d = true) := by
  have hne : (a :: rest) ≠ [] := by simp
  have hmapne : (a :: rest).map shlexQuote ≠ [] := by simp
  have h1 := pyJoin_getLast [' '] ((a :: rest).map shlexQuote) hmapne
    (fun q hq => by
      obtain ⟨b, _, rfl⟩ := List.mem_map.mp hq
      exact shlexQuote_ne_nil b)
  have h2 : ((a :: rest).map shlexQuote).getLast hmapne
      = shlexQuote ((a :: rest).getLast hne) := by
    have h3 : ((a :: rest).map shlexQuote).getLast? = some (shlexQuote ((a :: rest).getLast hne)) := by
      rw [getLast?_map, List.getLast?_eq_getLast_of_ne_nil hne]
      rfl
    rw [List.getLast?_eq_getLast_of_ne_nil hmapne] at h3
    exact Option.some_injective _ h3
  obtain ⟨d, hd, hclass⟩ := shlexQuote_getLast ((a :: rest).getLast hne)
  refine ⟨d, ?_, hclass⟩
  rw [shlexJoin, h1, h2, hd]

/-! Splitlines lemmas for newline-joined text. -/

theorem pySplitlinesAux_line (l : List Char) (hl : ∀ c ∈ l, pyIsLineBreak c = false) :
    ∀ (rest cur : List Char),
    pySplitlinesAux (l ++ '\n' :: rest) false cur
      = (cur.reverse ++ l) :: pySplitlinesAux rest false [] := by
  induction l with
  | nil =>
    intro rest cur
    have d1 : ('\n' : Char) ≠ '\x0d' := by decide
    have d2 : pyIsLineBreak '\n' = true := by decide
    simp [pySplitlinesAux, d1, d2]
  | cons c l' ih =>
    intro rest cur
    have hc := hl c (List.mem_cons_self c l')
    have hcr : c ≠ '\x0d' := by
      intro h
      subst h
      exact absurd hc (by decide)
    rw [List.cons_append, pySplitlinesAux]
    simp only [Bool.false_and, if_neg, hcr, hc, Bool.false_eq_true, if_false]
    rw [ih (fun d hd => hl d (List.mem_cons_of_mem c hd)) rest (c :: cur)]
    simp

theorem pySplitlinesAux_tail (x : List Char)
    (hx : ∀ c ∈ x, pyIsLineBreak c = true → c = '\n') :
    ∀ cur, pySplitlinesAux (x ++ ['\n']) false cur ≠ [] ∧
      pyJoin ['\n'] (pySplitlinesAux (x ++ ['\n']) false cur) = cur.reverse ++ x := by
  induction x with
  | nil =>
    intro cur
    have d1 : ('\n' : Char) ≠ '\x0d' := by decide
    have d2 : pyIsLineBreak '\n' = true := by decide
    constructor
    · simp [pySplitlinesAux, d1, d2]
    · simp [pySplitlinesAux, d1, d2, pyJoin]
  | cons c x' ih =>
    intro cur
    by_cases hc : c = '\n'
    · subst hc
      have d1 : ('\n' : Char) ≠ '\x0d' := by decide
      have d2 : pyIsLineBreak '\n' = true := by decide
      rw [List.cons_append, pySplitlinesAux]
      simp only [Bool.false_and, if_neg, d1, d2, Bool.false_eq_true, if_false, if_true]
      obtain ⟨h1, h2⟩ := ih (fun d hd hb => hx d (List.mem_cons_of_mem _ hd) hb) []
      constructor
      · simp
      · rcases hT : pySplitlinesAux (x' ++ ['\n']) false [] with _ | ⟨t, ts⟩
        · exact absurd hT h1
        · rw [hT] at h2
          rw [pyJoin_cons₂, h2]
          simp
    · have hcb : pyIsLineBreak c = false := by
        cases hb : pyIsLineBreak c
        · rfl
        · exact absurd (hx c (List.mem_cons_self c x') hb) hc
      have hcr : c ≠ '\x0d' := by
        intro h
        subst h
        exact absurd hcb (by decide)
      rw [List.cons_append, pySplitlinesAux]
      simp only [Bool.false_and, if_neg, hcr, hcb, Bool.false_eq_true, if_false]
      obtain ⟨h1, h2⟩ := ih (fun d hd hb => hx d (List.mem_cons_of_mem _ hd) hb) (c :: cur)
      refine ⟨h1, ?_⟩
      rw [h2]
      simp

/-! Python strip and the header split. -/

theorem dropWhile_eq_self_of_head (l : List Char)
    (h : ∀ c, l.head? = some c → pyIsSpace c = false) : l.dropWhile pyIsSpace = l := by
  rcases l with _ | ⟨c, t⟩
  · rfl
  · rw [List.dropWhile_cons]
    simp [h c rfl]

theorem pyStrip_eq_self (x : List Char)
    (h1 : ∀ c, x.head? = some c → pyIsSpace c = false)
    (h2 : ∀ c, x.getLast? = some c → pyIsSpace c = false) : pyStrip x = x := by
  rw [pyStrip, dropWhile_eq_self_of_head x h1]
  rw [dropWhile_eq_self_of_head x.reverse (fun c hc => h2 c (by rwa [List.head?_reverse] at hc))]
  exact List.reverse_reverse x

theorem pyStrip_space_cons (s : List Char)
    (h1 : ∀ c, s.head? = some c → pyIsSpace c = false)
    (h2 : ∀ c, s.getLast? = some c → pyIsSpace c = false) : pyStrip (' ' :: s) = s := by
  rw [pyStrip, List.dropWhile_cons]
  rw [if_pos (by decide)]
  rw [dropWhile_eq_self_of_head s h1]
  rw [dropWhile_eq_self_of_head s.reverse (fun c hc => h2 c (by rwa [List.head?_reverse] at hc))]
  exact List.reverse_reverse s

theorem dropWhile_append_singleton_ne_nil (c : Char) (h : pyIsSpace c = false) :
    ∀ l : List Char, (l ++ [c]).dropWhile pyIsSpace ≠ [] := by
  intro l
  induction l with
  | nil =>
    rw [List.nil_append, List.dropWhile_cons]
    simp [h]
  | cons d ds ih =>
    rw [List.cons_append, List.dropWhile_cons]
    by_cases hd : pyIsSpace d
    · simpa [hd] using ih
    · simp [hd]

theorem pyStrip_ne_nil_of_head (c : Char) (t : List Char) (h : pyIsSpace c = false) :
    pyStrip (c :: t) ≠ [] := by
  rw [pyStrip, List.dropWhile_cons]
  rw [if_neg (by simp [h])]
  have hrev : (c :: t).reverse = t.reverse ++ [c] := by simp
  rw [hrev]
  simp only [ne_eq, List.reverse_eq_nil_iff]
  exact dropWhile_append_singleton_ne_nil c h t.reverse

theorem splitFirst_append (sep : Char) (A B : List Char) (h : sep ∉ A) :
    splitFirst sep (A ++ sep :: B) = (A, B) := by
  induction A with
  | nil => simp [splitFirst]
  | cons a A' ih =>
    have ha : a ≠ sep := fun hc => h (hc ▸ List.mem_cons_self a A')
    rw [List.cons_append, splitFirst, if_neg ha,
      ih (fun hm => h (List.mem_cons_of_mem a hm))]

theorem parseHeaderLines_blank (S : List (List Char)) (sec : Option (List Char)) :
    parseHeaderLines ([] :: S) sec = (sec, S) := by
  rw [parseHeaderLines]
  simp [pyStrip]

theorem parseHeaderLines_secret (s : List Char) (S : List (List Char))
    (hs1 : ∀ c, s.head? = some c → pyIsSpace c = false)
    (hs2 : ∀ c, s.getLast? = some c → pyIsSpace c = false) :
    parseHeaderLines ((SECRET_TOKEN_KEY ++ ':' :: ' ' :: s) :: [] :: S) none = (some s, S) := by
  rw [parseHeaderLines]
  have hnid : pyStrip (SECRET_TOKEN_KEY ++ ':' :: ' ' :: s) ≠ [] := by
    have hshape : SECRET_TOKEN_KEY ++ ':' :: ' ' :: s
        = 'S' :: ("ECRET_TOKEN".data ++ ':' :: ' ' :: s) := rfl
    rw [hshape]
    exact pyStrip_ne_nil_of_head _ _ (by decide)
  rw [if_neg hnid]
  have hcont : (SECRET_TOKEN_KEY ++ ':' :: ' ' :: s).contains ':' = true := by
    have : (':' : Char) ∈ SECRET_TOKEN_KEY ++ ':' :: ' ' :: s :=
      List.mem_append.mpr (Or.inr (List.mem_cons_self _ _))
    exact List.elem_eq_true_of_mem this
  have hsplit : splitFirst ':' (SECRET_TOKEN_KEY ++ ':' :: ' ' :: s)
      = (SECRET_TOKEN_KEY, ' ' :: s) :=
    splitFirst_append ':' SECRET_TOKEN_KEY (' ' :: s) (by decide)
  have hkey : pyUpper (pyStrip SECRET_TOKEN_KEY) = SECRET_TOKEN_KEY := by decide
  have hstrip := pyStrip_space_cons s hs1 hs2
  simp only [hcont, hsplit, hkey, if_true, hstrip, parseHeaderLines_blank]

/-! json.loads can only produce an array or an object when the first
significant character is the corresponding bracket, so the shlex fallback of
build_command is always taken on shlex.join output. -/

theorem shlexSafeChar_not_jsonWs (c : Char) (h : shlexSafeChar c = true) :
    jsonWs c = false := by
  cases hs : jsonWs c
  · rfl
  · exfalso
    rw [jsonWs] at hs
    simp only [Bool.or_eq_true, decide_eq_true_eq] at hs
    rcases hs with ((h1 | h1) | h1) | h1 <;> subst h1 <;> exact absurd h (by decide)

theorem parseJsonValue_not_bracket (fuel : Nat) (cs : List Char) (v : PyJson)
    (rest : List Char) (h : parseJsonValue fuel cs = some (v, rest))
    (hhead : ∀ c r, jsonSkipWs cs = c :: r → c ≠ '[' ∧ c ≠ '{') :
    (∀ xs, v ≠ PyJson.arr xs) ∧ (∀ kvs, v ≠ PyJson.obj kvs) := by
  cases fuel with
  | zero =>
    rw [parseJsonValue] at h
    exact absurd h (by simp)
  | succ fuel =>
    rw [parseJsonValue] at h
    rcases hsk : jsonSkipWs cs with _ | ⟨c, r⟩
    · rw [hsk] at h
      exact absurd h (by simp)
    · rw [hsk] at h
      dsimp only at h
      obtain ⟨hc1, hc2⟩ := hhead c r hsk
      rw [if_neg hc1, if_neg hc2] at h
      by_cases h3 : c = chDQ
      · rw [if_pos h3] at h
        rcases hb : parseJsonStringBody (r.length + 1) r with _ | ⟨s2, r2⟩
        · rw [hb] at h
          exact absurd h (by simp)
        · rw [hb] at h
          simp only [Option.some_inj, Prod.mk.injEq] at h
          obtain ⟨hv, _⟩ := h
          subst hv
          exact ⟨fun xs => by simp, fun kvs => by simp⟩
      · rw [if_neg h3] at h
        by_cases h4 : c = 't'
        · rw [if_pos h4] at h
          by_cases h5 : startsWithChars ['r', 'u', 'e'] r
          · rw [if_pos h5] at h
            simp only [Option.some_inj, Prod.mk.injEq] at h
            obtain ⟨hv, _⟩ := h
            subst hv
            exact ⟨fun xs => by simp, fun kvs => by simp⟩
          · rw [if_neg h5] at h
            exact absurd h (by simp)
        · rw [if_neg h4] at h
          by_cases h6 : c = 'f'
          · rw [if_pos h6] at h
            by_cases h7 : startsWithChars ['a', 'l', 's', 'e'] r
            · rw [if_pos h7] at h
              simp only [Option.some_inj, Prod.mk.injEq] at h
              obtain ⟨hv, _⟩ := h
              subst hv
              exact ⟨fun xs => by simp, fun kvs => by simp⟩
            · rw [if_neg h7] at h
              exact absurd h (by simp)
          · rw [if_neg h6] at h
            by_cases h8 : c = 'n'
            · rw [if_pos h8] at h
              by_cases h9 : startsWithChars ['u', 'l', 'l'] r
              · rw [if_pos h9] at h
                simp only [Option.some_inj, Prod.mk.injEq] at h
                obtain ⟨hv, _⟩ := h
                subst hv
                exact ⟨fun xs => by simp, fun kvs => by simp⟩
              · rw [if_neg h9] at h
                exact absurd h (by simp)
            · rw [if_neg h8] at h
              by_cases h10 : c.isDigit || c = '-'
              · rw [if_pos h10] at h
                simp only [Option.some_inj, Prod.mk.injEq] at h
                obtain ⟨hv, _⟩ := h
                subst hv
                exact ⟨fun xs => by simp, fun kvs => by simp⟩
              · rw [if_neg h10] at h
                exact absurd h (by simp)

theorem jsonLoads_not_bracket (s : List Char) (v : PyJson)
    (h : jsonLoads s = some v)
    (hhead : ∀ c r, jsonSkipWs s = c :: r → c ≠ '[' ∧ c ≠ '{') :
    (∀ xs, v ≠ PyJson.arr xs) ∧ (∀ kvs, v ≠ PyJson.obj kvs) := by
  rw [jsonLoads] at h
  rcases hp : parseJsonValue (s.length + 1) s with _ | ⟨v2, rest⟩
  · rw [hp] at h
    exact absurd h (by simp)
  · rw [hp] at h
    dsimp only at h
    by_cases hr : jsonSkipWs rest = []
    · rw [if_pos hr] at h
      have hv : v2 = v := Option.some_injective _ h
      subst hv
      exact parseJsonValue_not_bracket (s.length + 1) s v2 rest hp hhead
    · rw [if_neg hr] at h
      exact absurd h (by simp)

theorem build_command_shlexJoin (a : List Char) (rest : List (List Char)) :
    build_command (shlexJoin (a :: rest)) = (some (a :: rest), none) := by
  obtain ⟨d, r, hj, hclass⟩ := shlexJoin_head a rest
  have hdws : jsonWs d = false := by
    rcases hclass with rfl | hsafe
    · decide
    · exact shlexSafeChar_not_jsonWs d hsafe
  have hskip : jsonSkipWs (shlexJoin (a :: rest)) = d :: r := by
    rw [hj, jsonSkipWs, List.dropWhile_cons]
    simp [hdws]
  have hhead : ∀ c r2, jsonSkipWs (shlexJoin (a :: rest)) = c :: r2 → c ≠ '[' ∧ c ≠ '{' := by
    intro c r2 hcr
    rw [hskip] at hcr
    injection hcr with hc1 hc2
    subst hc1
    constructor
    · rcases hclass with rfl | hsafe
      · decide
      · intro hc
        subst hc
        exact absurd hsafe (by decide)
    · rcases hclass with rfl | hsafe
      · decide
      · intro hc
        subst hc
        exact absurd hsafe (by decide)
  have hfb : buildCommandFallback (shlexJoin (a :: rest)) = (some (a :: rest), none) := by
    rw [buildCommandFallback, shlexSplit_shlexJoin (a :: rest) (by simp)]
    dsimp only
    rw [if_neg (by simp)]
  rcases hl : jsonLoads (shlexJoin (a :: rest)) with _ | v
  · rw [build_command, hl]
    exact hfb
  · have hnb := jsonLoads_not_bracket _ v hl hhead
    cases v with
    | arr xs => exact absurd rfl (hnb.1 xs)
    | obj kvs => exact absurd rfl (hnb.2 kvs)
    | null =>
      rw [build_command, hl]
      exact hfb
    | bool b =>
      rw [build_command, hl]
      exact hfb
    | num raw =>
      rw [build_command, hl]
      exact hfb
    | str s2 =>
      rw [build_command, hl]
      exact hfb

/-- Walking parse_cmd_file over well-shaped lines: the magic header first,
then the header lines, then the payload. -/
theorem parse_cmd_file_shape (contents : List Char) (secTok : Option (List Char))
    (rest2 : List (List Char)) (T : List (List Char)) (cmd : List Char)
    (hsplit : pySplitlines contents = MAGIC_HEADER :: rest2)
    (hheader : parseHeaderLines rest2 none = (secTok, T))
    (hjoin : pyJoin ['\n'] T = cmd)
    (hstripcmd : pyStrip cmd = cmd)
    (hcmdne : cmd ≠ []) :
    parse_cmd_file contents = (secTok, some cmd, none) := by
  have hmagic_strip : pyStrip MAGIC_HEADER = MAGIC_HEADER := by decide
  have hmagic_ne : ¬(pyStrip MAGIC_HEADER = []) := by
    rw [hmagic_strip]
    simp [MAGIC_HEADER]
  have hmagic_sw : startsWithChars MAGIC_HEADER (pyStrip MAGIC_HEADER) = true := by decide
  rw [parse_cmd_file, hsplit]
  rw [if_neg (by simp)]
  rw [List.dropWhile_cons, if_neg (by simp [hmagic_ne])]
  show (if (!startsWithChars MAGIC_HEADER (pyStrip MAGIC_HEADER)) = true
      then ((none, none, some "missing magic header".data) :
        Option (List Char) × Option (List Char) × Option (List Char))
      else
        let hdr := parseHeaderLines rest2 none
        let cmd_text := pyStrip (pyJoin ['\n'] hdr.2)
        if cmd_text = [] then (hdr.1, none, some "no command payload found".data)
        else (hdr.1, some cmd_text, none)) = (secTok, some cmd, none)
  rw [if_neg (by simp [hmagic_sw])]
  rw [hheader]
  simp only [hjoin, hstripcmd]
  rw [if_neg hcmdne]

theorem pyJoin_singleton (sep x : List Char) : pyJoin sep [x] = x := rfl

/-- With a falsy secret the worker writes header, blank line, command. -/
theorem writeCmdFileText_falsy (hybrid_secret : Option (List Char))
    (command : List (List Char)) (hs : writtenSecretToken hybrid_secret = none) :
    writeCmdFileText hybrid_secret command
      = MAGIC_HEADER ++ '\n' :: '\n' :: (shlexJoin command ++ ['\n']) := by
  rcases hybrid_secret with _ | s
  · rw [writeCmdFileText]
    simp [pyJoin_cons₂, pyJoin_singleton]
  · dsimp only [writtenSecretToken] at hs
    by_cases hse : s = []
    · subst hse
      rw [writeCmdFileText]
      simp [pyJoin_cons₂, pyJoin_singleton]
    · rw [if_neg hse] at hs
      exact absurd hs (by simp)

/-- With a truthy secret the worker writes header, SECRET_TOKEN line, blank
line, command. -/
theorem writeCmdFileText_truthy (s : List Char) (command : List (List Char))
    (hs : s ≠ []) :
    writeCmdFileText (some s) command
      = MAGIC_HEADER ++ '\n' ::
        ((SECRET_TOKEN_KEY ++ ':' :: ' ' :: s) ++ '\n' :: '\n' ::
          (shlexJoin command ++ ['\n'])) := by
  rw [writeCmdFileText]
  simp [hs, pyJoin_cons₂, pyJoin_singleton]

/-- splitlines of a falsy-secret command file. -/
theorem splitlines_writeCmdFileText_falsy (hybrid_secret : Option (List Char))
    (command : List (List Char)) (hs : writtenSecretToken hybrid_secret = none) :
    pySplitlines (writeCmdFileText hybrid_secret command)
      = MAGIC_HEADER :: [] ::
        pySplitlinesAux (shlexJoin command ++ ['\n']) false [] := by
  rw [writeCmdFileText_falsy hybrid_secret command hs, pySplitlines]
  rw [pySplitlinesAux_line MAGIC_HEADER (by decide)
    ('\n' :: (shlexJoin command ++ ['\n'])) []]
  have h2 := pySplitlinesAux_line [] (by simp) (shlexJoin command ++ ['\n']) []
  simp only [List.nil_append, List.reverse_nil, List.append_nil] at h2
  rw [h2]
  simp

/-- splitlines of a truthy-secret command file whose secret has no line
break. -/
theorem splitlines_writeCmdFileText_truthy (s : List Char)
    (command : List (List Char)) (hs : s ≠ [])
    (hsbr : ∀ c ∈ s, pyIsLineBreak c = false) :
    pySplitlines (writeCmdFileText (some s) command)
      = MAGIC_HEADER :: (SECRET_TOKEN_KEY ++ ':' :: ' ' :: s) :: [] ::
        pySplitlinesAux (shlexJoin command ++ ['\n']) false [] := by
  rw [writeCmdFileText_truthy s command hs, pySplitlines]
  rw [pySplitlinesAux_line MAGIC_HEADER (by decide)
    ((SECRET_TOKEN_KEY ++ ':' :: ' ' :: s) ++ '\n' :: '\n' ::
      (shlexJoin command ++ ['\n'])) []]
  have hsecbr : ∀ c ∈ SECRET_TOKEN_KEY ++ ':' :: ' ' :: s, pyIsLineBreak c = false := by
    have hkey : ∀ c ∈ SECRET_TOKEN_KEY, pyIsLineBreak c = false := by decide
    intro c hc
    rcases List.mem_append.mp hc with h | h
    · exact hkey c h
    · rcases List.mem_cons.mp h with rfl | h
      · decide
      · rcases List.mem_cons.mp h with rfl | h
        · decide
        · exact hsbr c h
  rw [pySplitlinesAux_line (SECRET_TOKEN_KEY ++ ':' :: ' ' :: s) hsecbr
    ('\n' :: (shlexJoin command ++ ['\n'])) []]
  have h2 := pySplitlinesAux_line [] (by simp) (shlexJoin command ++ ['\n']) []
  simp only [List.nil_append, List.reverse_nil, List.append_nil] at h2
  rw [h2]
  simp

/-- C6: refuted as stated. A command whose argument carries a carriage return
round-trips to a DIFFERENT argument list: the worker quotes the argument and
writes it verbatim, splitlines on the agent side breaks the quoted argument at
the carriage return, and the newline join of the payload lines turns the
carriage return into a newline, so parsing recovers a command with a newline
where the carriage return was. -/
theorem c6_counterexample :
    (parse_cmd_file (writeCmdFileText none exCmdWithCR)
        = (none, some [chSQ, 'a', '\n', 'b', chSQ], none) ∧
      build_command [chSQ, 'a', '\n', 'b', chSQ]
        = (some [['a', '\n', 'b']], none)) ∧
    ¬ [['a', '\n', 'b']] = exCmdWithCR :=
  ⟨⟨by decide, by decide⟩, by decide⟩

/-- C6 (amended): for a non-empty argument list whose only line-break
characters are newlines, and a secret that is either falsy (then no
SECRET_TOKEN line is written and none is recovered) or free of line breaks and
of leading or trailing whitespace, parsing the written command file recovers
exactly the written secret token and the shlex join of the arguments as the
command text, and decoding that text recovers exactly the original argument
list. -/
theorem c6_amended_roundtrip (hybrid_secret : Option (List Char))
    (args : List (List Char)) (hne : args ≠ [])
    (hargs : ∀ a ∈ args, ∀ c ∈ a, pyIsLineBreak c = true → c = '\n')
    (hsec : ∀ s, hybrid_secret = some s →
      (∀ c, s.head? = some c → pyIsSpace c = false) ∧
      (∀ c, s.getLast? = some c → pyIsSpace c = false) ∧
      (∀ c ∈ s, pyIsLineBreak c = false)) :
    parse_cmd_file (writeCmdFileText hybrid_secret args)
      = (writtenSecretToken hybrid_secret, some (shlexJoin args), none) ∧
    build_command (shlexJoin args) = (some args, none) := by
  cases args with
  | nil => exact absurd rfl hne
  | cons a rest =>
    refine ⟨?_, build_command_shlexJoin a rest⟩
    obtain ⟨d, r, hj, hclass⟩ := shlexJoin_head a rest
    have hcmdne : shlexJoin (a :: rest) ≠ [] := by
      rw [hj]
      simp
    have hheadsp : ∀ c, (shlexJoin (a :: rest)).head? = some c → pyIsSpace c = false := by
      intro c hc
      rw [hj] at hc
      simp only [List.head?_cons, Option.some_inj] at hc
      subst hc
      rcases hclass with rfl | hsafe
      · decide
      · exact shlexSafeChar_not_space _ hsafe
    obtain ⟨dl, hdl, hdlclass⟩ := shlexJoin_getLast a rest
    have hlastsp : ∀ c, (shlexJoin (a :: rest)).getLast? = some c → pyIsSpace c = false := by
      intro c hc
      rw [hdl] at hc
      simp only [Option.some_inj] at hc
      subst hc
      rcases hdlclass with rfl | hsafe
      · decide
      · exact shlexSafeChar_not_space _ hsafe
    have hstripcmd := pyStrip_eq_self _ hheadsp hlastsp
    have hcmdbr := shlexJoin_breaks (a :: rest) hargs
    obtain ⟨hTne, hTjoin⟩ := pySplitlinesAux_tail (shlexJoin (a :: rest)) hcmdbr []
    simp only [List.reverse_nil, List.nil_append] at hTjoin
    rcases hwsec : writtenSecretToken hybrid_secret with _ | s0
    · exact parse_cmd_file_shape _ none
        ([] :: pySplitlinesAux (shlexJoin (a :: rest) ++ ['\n']) false [])
        (pySplitlinesAux (shlexJoin (a :: rest) ++ ['\n']) false [])
        (shlexJoin (a :: rest))
        (splitlines_writeCmdFileText_falsy hybrid_secret (a :: rest) hwsec)
        (parseHeaderLines_blank _ none) hTjoin hstripcmd hcmdne
    · have hsecEq : hybrid_secret = some s0 ∧ s0 ≠ [] := by
        rcases hybrid_secret with _ | s
        · exact absurd hwsec (by simp [writtenSecretToken])
        · dsimp only [writtenSecretToken] at hwsec
          by_cases hse : s = []
          · rw [if_pos hse] at hwsec
            exact absurd hwsec (by simp)
          · rw [if_neg hse] at hwsec
            injection hwsec with h
            subst h
            exact ⟨rfl, hse⟩
      obtain ⟨hsEq, hs0ne⟩ := hsecEq
      obtain ⟨hs1, hs2, hs3⟩ := hsec s0 hsEq
      rw [hsEq]
      exact parse_cmd_file_shape _ (some s0)
        ((SECRET_TOKEN_KEY ++ ':' :: ' ' :: s0) :: [] ::
          pySplitlinesAux (shlexJoin (a :: rest) ++ ['\n']) false [])
        (pySplitlinesAux (shlexJoin (a :: rest) ++ ['\n']) false [])
        (shlexJoin (a :: rest))
        (splitlines_writeCmdFileText_truthy s0 (a :: rest) hs0ne hs3)
        (parseHeaderLines_secret s0 _ hs1 hs2) hTjoin hstripcmd hcmdne

/-- C6 (amended) witness: a two-argument echo command with secret abc
round-trips exactly. -/
theorem c6_amended_witness :
    parse_cmd_file (writeCmdFileText (some "abc".data) exCmdEcho)
      = (writtenSecretToken (some "abc".data), some (shlexJoin exCmdEcho), none) ∧
    build_command (shlexJoin exCmdEcho) = (some exCmdEcho, none) :=
  c6_amended_roundtrip (some "abc".data) exCmdEcho (by decide) (by decide)
    (fun s hs => by
      injection hs with h
      subst h
      exact ⟨by decide, by decide, by decide⟩)

end Xibalba
